import Mathlib

/-!
Verification of the stage-1 split-param resharding layer of
`paddlenlp/trainer/unified_checkpoint/sharding_split_param_utils.py`.

Tensors are modelled as flat integer buffers with a dtype tag, a shape and a
name; state dicts as insertion-ordered association lists; the per-rank slice
metadata (`_param_begin`, `_param_end`, `_index`, `_padded_size`, `numel`) as
integers.  Point-to-point transport is modelled by reading the sender's buffer
directly (`peers`), matching the blocking matched send/recv of the code.
-/

namespace SplitParam

/-- A paddle tensor: dtype tag, shape, framework name and flat data. -/
structure Tensor where
  dtype : String
  shape : List Int
  tname : String
  data : List Int
  deriving DecidableEq, Repr

/-- Per-parameter metadata `(shape, numel, index, padded_size)` from
`param_shape_info`. -/
structure ParamMeta where
  shape : List Int
  numel : Int
  index : Int
  padded : Int
  deriving DecidableEq, Repr

/-- `tensor.reshape(shape)`: the flat data is unchanged. -/
def reshapeT (t : Tensor) (s : List Int) : Tensor :=
  ⟨t.dtype, s, t.tname, t.data⟩

/-- `paddle.cast(tensor, dtype)`: an up-cast keeps the values. -/
def castT (t : Tensor) (dt : String) : Tensor :=
  ⟨dt, t.shape, t.tname, t.data⟩

/-- Rename a tensor (`tensor.name = n`). -/
def renameT (t : Tensor) (n : String) : Tensor :=
  ⟨t.dtype, t.shape, n, t.data⟩

/-- Python-dict lookup on an insertion-ordered association list. -/
def alookup {α : Type} : List (String × α) → String → Option α
  | [], _ => none
  | (k, v) :: rest, n => if k = n then some v else alookup rest n

/-- Python-dict assignment: replace in place, else append at the end. -/
def aset {α : Type} : List (String × α) → String → α → List (String × α)
  | [], n, v => [(n, v)]
  | (k, w) :: rest, n, v =>
    if k = n then (n, v) :: rest else (k, w) :: aset rest n v

/-- Python-dict `pop` of an existing key. -/
def apop {α : Type} : List (String × α) → String → List (String × α)
  | [], _ => []
  | (k, w) :: rest, n => if k = n then rest else (k, w) :: apop rest n

/-- The key list of a dict, in insertion order (`list(d.keys())`). -/
def akeys {α : Type} (d : List (String × α)) : List String :=
  d.map Prod.fst

theorem alookup_aset_self {α : Type} (d : List (String × α)) (k : String) (v : α) :
    alookup (aset d k v) k = some v := by
  induction d with
  | nil => simp [aset, alookup]
  | cons p rest ih =>
    obtain ⟨k0, v0⟩ := p
    by_cases h : k0 = k <;> simp [aset, alookup, h, ih]

theorem alookup_aset_ne {α : Type} (d : List (String × α)) (k n : String) (v : α)
    (h : k ≠ n) : alookup (aset d k v) n = alookup d n := by
  induction d with
  | nil => simp [aset, alookup, h]
  | cons p rest ih =>
    obtain ⟨k0, v0⟩ := p
    by_cases h0 : k0 = k
    · subst h0; simp [aset, alookup, h]
    · simp [aset, alookup, h0, ih]

theorem alookup_apop_ne {α : Type} (d : List (String × α)) (k n : String)
    (h : k ≠ n) : alookup (apop d k) n = alookup d n := by
  induction d with
  | nil => simp [apop]
  | cons p rest ih =>
    obtain ⟨k0, v0⟩ := p
    by_cases h0 : k0 = k
    · subst h0; simp [apop, alookup, h]
    · simp [apop, alookup, h0, ih]

theorem alookup_eq_none {α : Type} (d : List (String × α)) (k : String)
    (h : k ∉ akeys d) : alookup d k = none := by
  induction d with
  | nil => rfl
  | cons p rest ih =>
    obtain ⟨k0, v0⟩ := p
    simp only [akeys, List.map_cons, List.mem_cons] at h
    push_neg at h
    simp only [alookup]
    rw [if_neg (fun hh => h.1 hh.symm)]
    exact ih (by simpa [akeys] using h.2)

theorem alookup_apop_self {α : Type} (d : List (String × α)) (k : String)
    (hnd : (akeys d).Nodup) : alookup (apop d k) k = none := by
  induction d with
  | nil => rfl
  | cons p rest ih =>
    obtain ⟨k0, v0⟩ := p
    simp only [akeys, List.map_cons, List.nodup_cons] at hnd
    by_cases h0 : k0 = k
    · subst h0
      simp only [apop, if_pos rfl]
      exact alookup_eq_none rest k0 (by simpa [akeys] using hnd.1)
    · simp only [apop, if_neg h0, alookup]
      exact ih hnd.2

theorem akeys_aset_of_mem {α : Type} (d : List (String × α)) (k : String) (v : α)
    (h : k ∈ akeys d) : akeys (aset d k v) = akeys d := by
  induction d with
  | nil => simp [akeys] at h
  | cons p rest ih =>
    obtain ⟨k0, v0⟩ := p
    by_cases h0 : k0 = k
    · subst h0; simp [aset, akeys]
    · simp only [akeys, List.map_cons, List.mem_cons] at h
      rcases h with h | h
      · exact absurd h.symm h0
      · simp only [aset, if_neg h0, akeys, List.map_cons]
        rw [show List.map Prod.fst (aset rest k v) = akeys (aset rest k v) from rfl,
          ih (by simpa [akeys] using h)]
        rfl

theorem akeys_apop_sublist {α : Type} (d : List (String × α)) (k : String) :
    (akeys (apop d k)).Sublist (akeys d) := by
  induction d with
  | nil => simp [apop]
  | cons p rest ih =>
    obtain ⟨k0, v0⟩ := p
    by_cases h0 : k0 = k
    · simp only [apop, h0, if_pos rfl, akeys, List.map]
      exact (List.sublist_cons_self _ _)
    · simpa [apop, h0, akeys] using ih.cons₂ k0

theorem mem_alookup_isSome {α : Type} (d : List (String × α)) (k : String)
    (h : k ∈ akeys d) : (alookup d k).isSome := by
  induction d with
  | nil => simp [akeys] at h
  | cons p rest ih =>
    obtain ⟨k0, v0⟩ := p
    by_cases h0 : k0 = k
    · simp [alookup, h0]
    · simp only [akeys, List.map_cons, List.mem_cons] at h
      rcases h with h | h
      · exact absurd h.symm h0
      · simp [alookup, h0, ih (by simpa [akeys] using h)]

/-- One iteration of a Python loop `for key in list(d.keys())` whose body reads
`d[key]` and then either rewrites it (`some v`), pops it (`none`), or leaves the
dict alone when the key is gone. -/
def applyAct {α : Type} (act : String → α → Option α)
    (d : List (String × α)) (k : String) : List (String × α) :=
  match alookup d k with
  | none => d
  | some t =>
    match act k t with
    | some v => aset d k v
    | none => apop d k

/-- A whole `for key in list(d.keys())` loop with per-key action `act`. -/
def runPass {α : Type} (act : String → α → Option α)
    (d : List (String × α)) : List (String × α) :=
  (akeys d).foldl (applyAct act) d

theorem applyAct_lookup_ne {α : Type} (act : String → α → Option α)
    (d : List (String × α)) (k n : String) (h : k ≠ n) :
    alookup (applyAct act d k) n = alookup d n := by
  cases hl : alookup d k with
  | none => simp [applyAct, hl]
  | some t =>
    cases hact : act k t with
    | some v => simp [applyAct, hl, hact, alookup_aset_ne d k n v h]
    | none => simp [applyAct, hl, hact, alookup_apop_ne d k n h]

theorem applyAct_lookup_self {α : Type} (act : String → α → Option α)
    (d : List (String × α)) (k : String) (hnd : (akeys d).Nodup) :
    alookup (applyAct act d k) k = (alookup d k).bind (act k) := by
  cases hl : alookup d k with
  | none => simp [applyAct, hl]
  | some t =>
    cases hact : act k t with
    | some v => simp [applyAct, hl, hact, alookup_aset_self]
    | none => simp [applyAct, hl, hact, alookup_apop_self d k hnd]

theorem akeys_applyAct_mem {α : Type} (act : String → α → Option α)
    (d : List (String × α)) (k n : String)
    (h : n ∈ akeys (applyAct act d k)) : n ∈ akeys d := by
  cases hl : alookup d k with
  | none => simpa [applyAct, hl] using h
  | some t =>
    cases hact : act k t with
    | some v =>
      simp only [applyAct, hl, hact] at h
      by_cases hk : k ∈ akeys d
      · rwa [akeys_aset_of_mem d k v hk] at h
      · rw [alookup_eq_none d k hk] at hl; cases hl
    | none =>
      simp only [applyAct, hl, hact] at h
      exact (akeys_apop_sublist d k).mem h

theorem akeys_applyAct_nodup {α : Type} (act : String → α → Option α)
    (d : List (String × α)) (k : String) (hnd : (akeys d).Nodup) :
    (akeys (applyAct act d k)).Nodup := by
  cases hl : alookup d k with
  | none => simpa [applyAct, hl] using hnd
  | some t =>
    cases hact : act k t with
    | some v =>
      simp only [applyAct, hl, hact]
      by_cases hk : k ∈ akeys d
      · rwa [akeys_aset_of_mem d k v hk]
      · rw [alookup_eq_none d k hk] at hl; cases hl
    | none =>
      simp only [applyAct, hl, hact]
      exact (akeys_apop_sublist d k).nodup hnd

theorem foldPass_lookup_notmem {α : Type} (act : String → α → Option α)
    (ks : List String) (d : List (String × α)) (n : String) (h : n ∉ ks) :
    alookup (ks.foldl (applyAct act) d) n = alookup d n := by
  induction ks generalizing d with
  | nil => rfl
  | cons a ks ih =>
    simp only [List.mem_cons] at h
    push_neg at h
    simp only [List.foldl_cons]
    rw [ih _ h.2, applyAct_lookup_ne act d a n (fun hh => h.1 hh.symm)]

theorem foldPass_nodup {α : Type} (act : String → α → Option α)
    (ks : List String) (d : List (String × α)) (hnd : (akeys d).Nodup) :
    (akeys (ks.foldl (applyAct act) d)).Nodup := by
  induction ks generalizing d with
  | nil => exact hnd
  | cons a ks ih =>
    exact ih _ (akeys_applyAct_nodup act d a hnd)

theorem foldPass_lookup_mem {α : Type} (act : String → α → Option α)
    (ks : List String) (d : List (String × α)) (n : String)
    (hks : ks.Nodup) (hnd : (akeys d).Nodup) (h : n ∈ ks) :
    alookup (ks.foldl (applyAct act) d) n = (alookup d n).bind (act n) := by
  induction ks generalizing d with
  | nil => simp at h
  | cons a ks ih =>
    simp only [List.nodup_cons] at hks
    simp only [List.mem_cons] at h
    simp only [List.foldl_cons]
    rcases h with h | h
    · subst h
      rw [foldPass_lookup_notmem act ks _ n hks.1]
      exact applyAct_lookup_self act d n hnd
    · have han : a ≠ n := fun hh => hks.1 (hh ▸ h)
      rw [ih (applyAct act d a) hks.2 (akeys_applyAct_nodup act d a hnd) h,
        applyAct_lookup_ne act d a n han]

theorem runPass_lookup {α : Type} (act : String → α → Option α)
    (d : List (String × α)) (n : String) (hnd : (akeys d).Nodup) :
    alookup (runPass act d) n = (alookup d n).bind (act n) := by
  by_cases h : n ∈ akeys d
  · exact foldPass_lookup_mem act (akeys d) d n hnd hnd h
  · rw [runPass, foldPass_lookup_notmem act (akeys d) d n h,
      alookup_eq_none d n h]
    rfl

theorem runPass_nodup {α : Type} (act : String → α → Option α)
    (d : List (String × α)) (hnd : (akeys d).Nodup) :
    (akeys (runPass act d)).Nodup :=
  foldPass_nodup act (akeys d) d hnd

/-! ## Merge Engine (`merge_splited_param`, save / gather path) -/

/-- The fragment a sender contributes for its slice `[b, e)`: the whole local
buffer when the fragment holds no real/padding boundary
(`padding_start >= padding_end`), otherwise the first `padding_start - begin`
elements (the code at lines 87-96 and 102-106; `bps`/`bpe` are
`base_padding_start`/`base_padding_end`). -/
def contribData (bps bpe b e : Int) (buf : List Int) : List Int :=
  let ps := max b bps
  let pe := min e bpe
  if pe ≤ ps then buf else buf.take (ps - b).toNat

/-- The tensor the receiving rank assembles for a partial parameter:
concatenation of every sender's fragment in `send_info` order, reshaped to the
logical shape.  `peers s key` is the buffer rank `s` holds for `key` (data
received from `dist.stream.recv`); the receiver's own fragment is taken from
its local tensor `t`. -/
def mergedTensor (rank : Nat) (peers : Nat → String → List Int) (key : String)
    (t : Tensor) (m : ParamMeta) (sendI : List (Nat × Int × Int)) : Tensor :=
  ⟨t.dtype, m.shape, t.tname,
    (sendI.map (fun x =>
      contribData (m.index + m.numel) (m.index + m.padded) x.2.1 x.2.2
        (if x.1 = rank then t.data else peers x.1 key))).flatten⟩

/-- `static_name = key if is_master_weights else generate_base_static_name(key)[0]`
(lines 69 and 112); `baseOf` models `generate_base_static_name`, whose
definition lives outside this file's source. -/
def staticOf (isMW : Bool) (baseOf : String → String) (key : String) : String :=
  if isMW then key else baseOf key

/-- Per-key body of the main loop of `merge_splited_param` (lines 65-107).
Returns the new value for the key (`none` = the key is popped). -/
def mergeAct (rank : Nat) (isMW : Bool) (baseOf : String → String)
    (ptl : List String) (shapeInfo : String → ParamMeta)
    (sendT : String → List (Nat × Int × Int)) (recvT : String → Nat)
    (peers : Nat → String → List Int) (key : String) (t : Tensor) :
    Option Tensor :=
  if t.data.length = 1 then some t
  else
    let sn := staticOf isMW baseOf key
    let m := shapeInfo sn
    if sn ∈ ptl then
      if rank = recvT sn then
        some (mergedTensor rank peers key t m (sendT sn))
      else if (sendT sn).any (fun x => x.1 = rank) then none
      else some t
    else some (reshapeT t m.shape)

/-- Per-key body of the post-pass of `merge_splited_param` for
`ckpt_quant_stage != "O0"` (lines 109-117): single-element entries of partial
parameters are dropped on every rank but the owner. -/
def dropScalarAct (rank : Nat) (isMW : Bool) (baseOf : String → String)
    (ptl : List String) (recvT : String → Nat) (key : String) (t : Tensor) :
    Option Tensor :=
  if t.data.length = 1 then
    let sn := staticOf isMW baseOf key
    if sn ∈ ptl then
      if rank = recvT sn then some t else none
    else some t
  else some t

/-- `merge_splited_param(state_dict, partial_tensor_list, param_shape_info,
send_table, recv_table, is_master_weights, ckpt_quant_stage)` as run on rank
`rank`, with peer buffers `peers` standing for the matched point-to-point
transfers. -/
def mergeSplitedParam (rank : Nat) (isMW : Bool) (baseOf : String → String)
    (ptl : List String) (shapeInfo : String → ParamMeta)
    (sendT : String → List (Nat × Int × Int)) (recvT : String → Nat)
    (peers : Nat → String → List Int) (stage : String)
    (sd : List (String × Tensor)) : List (String × Tensor) :=
  let sd1 := runPass (mergeAct rank isMW baseOf ptl shapeInfo sendT recvT peers) sd
  if stage = "O0" then sd1
  else runPass (dropScalarAct rank isMW baseOf ptl recvT) sd1

theorem mergeSplitedParam_lookup (rank : Nat) (isMW : Bool)
    (baseOf : String → String) (ptl : List String)
    (shapeInfo : String → ParamMeta) (sendT : String → List (Nat × Int × Int))
    (recvT : String → Nat) (peers : Nat → String → List Int) (stage : String)
    (sd : List (String × Tensor)) (n : String) (hnd : (akeys sd).Nodup) :
    alookup (mergeSplitedParam rank isMW baseOf ptl shapeInfo sendT recvT peers stage sd) n =
      if stage = "O0" then
        (alookup sd n).bind (mergeAct rank isMW baseOf ptl shapeInfo sendT recvT peers n)
      else
        ((alookup sd n).bind (mergeAct rank isMW baseOf ptl shapeInfo sendT recvT peers n)).bind
          (dropScalarAct rank isMW baseOf ptl recvT n) := by
  by_cases hs : stage = "O0"
  · simp only [mergeSplitedParam, if_pos hs]
    exact runPass_lookup _ sd n hnd
  · simp only [mergeSplitedParam, if_neg hs]
    rw [runPass_lookup _ _ n (runPass_nodup _ sd hnd), runPass_lookup _ sd n hnd]

/-! ## Ownership Resolver (`gather_splited_param_for_optimizer`) -/

/-- One `_sharding_param_grad_view` entry of a communication buffer. -/
structure ParamView where
  pname : String
  pbegin : Int
  pend : Int
  pshape : List Int
  pnumel : Int
  pindex : Int
  ppadded : Int
  deriving DecidableEq, Repr

/-- The local slice catalog `param_slice_info` built at lines 129-134: one
`(begin, end)` entry per parameter of the communication buffers, whether or
not this rank holds any of its data. -/
def buildSliceCatalog (ps : List ParamView) : List (String × (Int × Int)) :=
  ps.foldl (fun acc p => aset acc p.pname (p.pbegin, p.pend)) []

/-- The `param_shape_info` catalog built at lines 135-140. -/
def buildShapeCatalog (ps : List ParamView) : List (String × ParamMeta) :=
  ps.foldl (fun acc p => aset acc p.pname ⟨p.pshape, p.pnumel, p.pindex, p.ppadded⟩) []

/-- One gathered `param_slice_info` object: the sender's `global_rank` plus its
slice catalog (an entry of `param_slice_info_list`). -/
structure RankCatalog where
  grank : Nat
  slices : String → Option (Int × Int)

/-- Per-key body of the classification loop at lines 154-166, dict effect only:
a full tensor (`end - begin == numel`) is reshaped to its logical shape, every
other case leaves the entry as it is. -/
def classifyAct (sliceInfo : String → Option (Int × Int))
    (shapeInfo : String → ParamMeta) (baseOf : String → String)
    (key : String) (t : Tensor) : Option Tensor :=
  match sliceInfo (baseOf key) with
  | none => some t
  | some be =>
    if t.data.length = 1 then some t
    else if be.2 - be.1 = (shapeInfo (baseOf key)).numel then
      some (reshapeT t (shapeInfo (baseOf key)).shape)
    else some t

/-- The dict effect of the classification loop over `optim_state_dict`. -/
def classifyPass (sliceInfo : String → Option (Int × Int))
    (shapeInfo : String → ParamMeta) (baseOf : String → String)
    (sd : List (String × Tensor)) : List (String × Tensor) :=
  runPass (classifyAct sliceInfo shapeInfo baseOf) sd

/-- The `partial_tensor_list` built by the classification loop: static names of
keys with more than one element, a catalogued slice, `end > begin` and
`end - begin != numel`. -/
def buildPartialList (sliceInfo : String → Option (Int × Int))
    (shapeInfo : String → ParamMeta) (baseOf : String → String)
    (sd : List (String × Tensor)) : List String :=
  sd.foldl (fun acc kt =>
    match sliceInfo (baseOf kt.1) with
    | none => acc
    | some be =>
      if kt.2.data.length = 1 then acc
      else if be.2 - be.1 = (shapeInfo (baseOf kt.1)).numel then acc
      else if be.2 ≤ be.1 then acc
      else acc ++ [baseOf kt.1]) []

/-- The `sharding_ranklist` of lines 171-175 for one partial name: every
gathered rank whose slice for that name has `end > begin`, in gathered
(all-gather, i.e. group rank) order.  `none` when some gathered catalog has no
entry for the name (a `KeyError` in the code). -/
def shardingRanklist (gathered : List RankCatalog) (key : String) :
    Option (List (Nat × Int × Int)) :=
  gathered.foldr (fun c acc =>
    match c.slices key, acc with
    | some be, some l => some (if be.1 < be.2 then (c.grank, be.1, be.2) :: l else l)
    | _, _ => none) (some [])

/-- Lines 176-177 for one partial name: `recv_table[key] = sharding_ranklist[0][0]`
and `send_table[key] = sharding_ranklist`; `none` when a slice lookup fails or
the ranklist is empty. -/
def buildTablesKey (gathered : List RankCatalog) (key : String) :
    Option (Nat × List (Nat × Int × Int)) :=
  (shardingRanklist gathered key).bind (fun l => l.head?.map (fun h => (h.1, l)))

/-- Ascending-`begin` order of a send plan. -/
def sortedByBegin : List (Nat × Int × Int) → Bool
  | [] => true
  | [_] => true
  | x :: y :: rest => decide (x.2.1 ≤ y.2.1) && sortedByBegin (y :: rest)

/-! ## Split/Reshape Engine (`reshape_params`, load path) -/

/-- The slicing body of `reshape_params` (lines 215-226): flatten, take the
local range `[begin - index, end - index)`, and zero-fill the padding overlap. -/
def reshapeBody (t : Tensor) (b e numel index padded : Int) : Tensor :=
  let sliced := (t.data.drop (b - index).toNat).take (e - b).toNat
  let ps := max b (index + numel)
  let pe := min e (index + padded)
  if ps < pe then
    ⟨t.dtype, [((sliced.length + (pe - ps).toNat : Nat) : Int)], t.tname,
      sliced ++ List.replicate (pe - ps).toNat 0⟩
  else ⟨t.dtype, [((sliced.length : Nat) : Int)], t.tname, sliced⟩

/-- Per-key body of `reshape_params` (lines 209-226); `s2s` models
`struct2static_name_mappings`. -/
def reshapeAct (s2s : String → String) (shapeInfo : String → ParamMeta)
    (sliceInfo : String → Int × Int) (key : String) (t : Tensor) :
    Option Tensor :=
  if 1 < t.data.length then
    let sn := s2s ((key.splitOn "/").headD "")
    let be := sliceInfo sn
    let m := shapeInfo sn
    some (reshapeBody t be.1 be.2 m.numel m.index m.padded)
  else some t

/-- `reshape_params(state_dict, struct2static_name_mappings, param_shape_info,
param_slice_info)`. -/
def reshapeParams (s2s : String → String) (shapeInfo : String → ParamMeta)
    (sliceInfo : String → Int × Int) (sd : List (String × Tensor)) :
    List (String × Tensor) :=
  runPass (reshapeAct s2s shapeInfo sliceInfo) sd

/-! ## Shard Resolver with fallback (`get_unfound_params`) -/

/-- Match the regex `_?shard\x5cd+_?` at the start of `cs` after the optional
leading underscore: literal `shard`, one or more digits (greedy), optional
trailing underscore.  Returns the remaining characters on success. -/
def matchShardCore : List Char → Option (List Char)
  | 's' :: 'h' :: 'a' :: 'r' :: 'd' :: rest =>
    match rest.takeWhile Char.isDigit with
    | [] => none
    | _ :: _ =>
      match rest.dropWhile Char.isDigit with
      | '_' :: r => some r
      | r => some r
  | _ => none

/-- Match the regex `_?shard\x5cd+_?` at the start of `cs` (Python `re` tries
the greedy `_?` first; skipping the underscore can never succeed since the
next literal is `s`). -/
def matchShardAt : List Char → Option (List Char)
  | '_' :: rest => matchShardCore rest
  | cs => matchShardCore cs

/-- Leftmost non-overlapping deletion of every `_?shard\x5cd+_?` match, the
effect of `re.sub(..., "", s)`.  Fueled by the string length: every match
consumes at least one character. -/
def subShardGo : Nat → List Char → List Char
  | 0, cs => cs
  | _ + 1, [] => []
  | fuel + 1, c :: rest =>
    match matchShardAt (c :: rest) with
    | some rest1 => subShardGo fuel rest1
    | none => c :: subShardGo fuel rest

/-- `re.sub(r"_?shard\x5cd+_?", "", s)` (line 421/425). -/
def stripShard (s : String) : String :=
  String.mk (subShardGo s.toList.length s.toList)

/-- A file of the checkpoint directory: its name and the key/tensor pairs it
holds (the `safe_open` view). -/
structure DirFile where
  fname : String
  fkeys : List (String × Tensor)
  deriving DecidableEq, Repr

/-- The backup-file filter of lines 423-426: starts with `optimizer` /
`master_weights`, ends with `safetensors`, is not the primary shard itself,
and equals the primary shard's name once shard-index tokens are stripped. -/
def isBackupFile (nameBase primaryName fileName : String) : Bool :=
  nameBase.toList.isPrefixOf fileName.toList &&
    ("safetensors".toList.isSuffixOf fileName.toList) &&
    decide (fileName ≠ primaryName) &&
    decide (stripShard fileName = stripShard primaryName)

/-- `get_unfound_params(unfound_keys, state_dict, is_optimizer)` (lines
416-436): when keys are missing, scan every backup file of the checkpoint
directory and pull each still-missing key found there into the state dict. -/
def getUnfoundParams (unfound : List String) (dir : List DirFile)
    (nameBase primaryName : String) (sd : List (String × Tensor)) :
    List (String × Tensor) :=
  if unfound.length = 0 then sd
  else
    (dir.filter (fun df => isBackupFile nameBase primaryName df.fname)).foldl
      (fun acc df =>
        unfound.foldl (fun acc2 k =>
          match alookup df.fkeys k with
          | some t => aset acc2 k t
          | none => acc2) acc) sd

/-! ## Master-Weight Reconciler (load path) -/

/-- Modelled from the spec: the fixed suffix token appended to a master
weight's static name to mark it as the high-precision shadow copy
(`FP32_MASTER`, imported by the source from `unified_checkpoint/utils.py`,
which is outside this file). -/
def FP32_MASTER : String := "fp32_master_0"

/-- One iteration of the master-weight loop at lines 351-364: key the tensor
by its static name, cast to float32 when its dtype differs, and rename with
the `FP32_MASTER` suffix. -/
def loadMWEntry (s2s : String → String) (key : String) (t : Tensor) :
    String × Tensor :=
  let sn := s2s key
  let t1 := if t.dtype ≠ "float32" then castT t "float32" else t
  (sn, renameT t1 (sn ++ "_" ++ FP32_MASTER))

/-- The whole master-weight storing loop of
`load_unified_optimizer_split_param` (lines 351-364), writing into
`returned_optim_state_dict["master_weights"]`. -/
def loadMWLoop (s2s : String → String) (mw : List (String × Tensor)) :
    List (String × Tensor) :=
  mw.foldl (fun acc kt =>
    let p := loadMWEntry s2s kt.1 kt.2
    aset acc p.1 p.2) []

/-- Lines 463-465 of `load_non_merge_optimizer_with_split_param`: when the run
is not AMP O1 and no master-weights file exists on disk, synthesize the master
weight by casting the regular model parameter to float32. -/
def maybeSynthesizeMW (isAmpO1 hasMWFile : Bool)
    (mw : List (String × Tensor)) (modelWeightKey : String)
    (modelParam : Tensor) : List (String × Tensor) :=
  if !isAmpO1 && !hasMWFile then
    aset mw modelWeightKey (castT modelParam "float32")
  else mw

/-! ## Flat-buffer views and the tiling invariant -/

/-- `n` samples of the global flat buffer `D` starting at offset `b`. -/
def intSeqGo (D : Int → Int) : Nat → Int → List Int
  | 0, _ => []
  | n + 1, b => D b :: intSeqGo D n (b + 1)

/-- The content of the global flat buffer `D` on `[b, e)`. -/
def intSeq (D : Int → Int) (b e : Int) : List Int :=
  intSeqGo D (e - b).toNat b

/-- The slices of a send plan, in list order, tile `[c, E)` consecutively:
each fragment starts where the previous one ended. -/
def consecutiveB : List (Nat × Int × Int) → Int → Int → Bool
  | [], c, E => decide (c = E)
  | x :: rest, c, E =>
    decide (x.2.1 = c) && decide (x.2.1 ≤ x.2.2) && consecutiveB rest x.2.2 E

/-- The tiling invariant of the spec: some reordering of the send plan covers
`[index, index + padded_size)` exactly once, with no gaps or overlaps. -/
def TilesRange (l : List (Nat × Int × Int)) (index padded : Int) : Prop :=
  ∃ l1, l.Perm l1 ∧ consecutiveB l1 index (index + padded) = true

theorem intSeqGo_length (D : Int → Int) (n : Nat) (b : Int) :
    (intSeqGo D n b).length = n := by
  induction n generalizing b with
  | zero => rfl
  | succ n ih => simp [intSeqGo, ih]

theorem intSeq_length (D : Int → Int) (b e : Int) :
    (intSeq D b e).length = (e - b).toNat :=
  intSeqGo_length D _ b

theorem intSeqGo_append (D : Int → Int) (m n : Nat) (b : Int) :
    intSeqGo D (m + n) b = intSeqGo D m b ++ intSeqGo D n (b + m) := by
  induction m generalizing b with
  | zero => simp [intSeqGo]
  | succ m ih =>
    have : (m + 1 + n) = (m + n) + 1 := by omega
    rw [this]
    simp only [intSeqGo, ih (b + 1), List.cons_append]
    rw [show (b + (↑(m + 1) : Int)) = b + 1 + ↑m by push_cast; omega]

theorem intSeq_append (D : Int → Int) (b m e : Int) (h1 : b ≤ m) (h2 : m ≤ e) :
    intSeq D b m ++ intSeq D m e = intSeq D b e := by
  unfold intSeq
  rw [show (e - b).toNat = (m - b).toNat + (e - m).toNat by omega,
    intSeqGo_append]
  congr 2
  omega

theorem intSeqGo_take (D : Int → Int) (n m : Nat) (b : Int) :
    (intSeqGo D n b).take m = intSeqGo D (min m n) b := by
  induction n generalizing m b with
  | zero => simp [intSeqGo]
  | succ n ih =>
    cases m with
    | zero => simp [intSeqGo]
    | succ m =>
      simp only [intSeqGo, List.take_succ_cons, ih]
      rw [show min (m + 1) (n + 1) = min m n + 1 by omega]
      rfl

theorem intSeqGo_drop (D : Int → Int) (n m : Nat) (b : Int) :
    (intSeqGo D n b).drop m = intSeqGo D (n - m) (b + m) := by
  induction n generalizing m b with
  | zero => simp [intSeqGo]
  | succ n ih =>
    cases m with
    | zero => simp [intSeqGo]
    | succ m =>
      simp only [intSeqGo, List.drop_succ_cons, ih]
      rw [show (n + 1) - (m + 1) = n - m by omega]
      congr 1
      push_cast
      omega

theorem intSeqGo_zeros (D : Int → Int) (n : Nat) (b : Int)
    (h : ∀ x : Int, b ≤ x → x < b + n → D x = 0) :
    intSeqGo D n b = List.replicate n 0 := by
  induction n generalizing b with
  | zero => rfl
  | succ n ih =>
    simp only [intSeqGo, List.replicate_succ]
    rw [h b le_rfl (by omega), ih (b + 1) (fun x hx1 hx2 => h x (by omega) (by push_cast at hx2 ⊢; omega))]

theorem intSeq_zeros (D : Int → Int) (b e : Int)
    (h : ∀ x : Int, b ≤ x → x < e → D x = 0) :
    intSeq D b e = List.replicate (e - b).toNat 0 := by
  unfold intSeq
  apply intSeqGo_zeros
  intro x hx1 hx2
  exact h x hx1 (by omega)

theorem intSeq_nil (D : Int → Int) (b e : Int) (h : e ≤ b) :
    intSeq D b e = [] := by
  unfold intSeq
  rw [show (e - b).toNat = 0 by omega]
  rfl

theorem consecutiveB_le (l : List (Nat × Int × Int)) (c E : Int)
    (h : consecutiveB l c E = true) : c ≤ E := by
  induction l generalizing c with
  | nil => simp [consecutiveB] at h; omega
  | cons x rest ih =>
    simp only [consecutiveB, Bool.and_eq_true, decide_eq_true_eq] at h
    have := ih x.2.2 h.2
    omega

theorem contribData_intSeq (D : Int → Int) (bps bpe b e : Int)
    (hbe : b ≤ e) (hebpe : e ≤ bpe) :
    contribData bps bpe b e (intSeq D b e) = intSeq D b (min e bps) := by
  unfold contribData
  by_cases hc : min e bpe ≤ max b bps
  · rw [if_pos hc]
    unfold intSeq
    rw [show (min e bps - b).toNat = (e - b).toNat by omega]
  · rw [if_neg hc]
    unfold intSeq
    rw [intSeqGo_take]
    rw [show min (max b bps - b).toNat (e - b).toNat = (min e bps - b).toNat by omega]

theorem contribData_length (bps bpe b e : Int) (buf : List Int) :
    (contribData bps bpe b e buf).length =
      if min e bpe ≤ max b bps then buf.length
      else min (max b bps - b).toNat buf.length := by
  simp only [contribData]
  split
  · rfl
  · simp [List.length_take]

theorem contribData_length_congr (bps bpe b e : Int) (buf1 buf2 : List Int)
    (h : buf1.length = buf2.length) :
    (contribData bps bpe b e buf1).length = (contribData bps bpe b e buf2).length := by
  rw [contribData_length, contribData_length, h]

theorem flatten_contribs_consecutive (D : Int → Int) (bps E : Int)
    (l : List (Nat × Int × Int)) (c : Int)
    (hc : consecutiveB l c E = true) (hbps : bps ≤ E)
    (bufOf : Nat × Int × Int → List Int)
    (hbuf : ∀ x ∈ l, bufOf x = intSeq D x.2.1 x.2.2) :
    (l.map (fun x => contribData bps E x.2.1 x.2.2 (bufOf x))).flatten =
      intSeq D c bps := by
  induction l generalizing c with
  | nil =>
    simp only [consecutiveB, decide_eq_true_eq] at hc
    subst hc
    exact (intSeq_nil D c bps hbps).symm
  | cons x rest ih =>
    simp only [consecutiveB, Bool.and_eq_true, decide_eq_true_eq] at hc
    obtain ⟨⟨hx1, hx2⟩, hrest⟩ := hc
    have heE : x.2.2 ≤ E := consecutiveB_le rest x.2.2 E hrest
    simp only [List.map_cons, List.flatten_cons]
    rw [hbuf x (List.mem_cons_self x rest), hx1,
      contribData_intSeq D bps E c x.2.2 (hx1 ▸ hx2) heE,
      ih x.2.2 hrest (fun y hy => hbuf y (List.mem_cons_of_mem x hy))]
    by_cases hebps : x.2.2 ≤ bps
    · rw [min_eq_left hebps]
      exact intSeq_append D c x.2.2 bps (hx1 ▸ hx2) hebps
    · rw [min_eq_right (by omega), intSeq_nil D x.2.2 bps (by omega),
        List.append_nil]

theorem sum_contribLen_consecutive (bps E : Int)
    (l : List (Nat × Int × Int)) (c : Int)
    (hc : consecutiveB l c E = true) (hbps : bps ≤ E)
    (bufOf : Nat × Int × Int → List Int)
    (hbuf : ∀ x ∈ l, (bufOf x).length = (x.2.2 - x.2.1).toNat) :
    (l.map (fun x => (contribData bps E x.2.1 x.2.2 (bufOf x)).length)).sum =
      (bps - c).toNat := by
  have hmap : l.map (fun x => (contribData bps E x.2.1 x.2.2 (bufOf x)).length) =
      l.map (fun x =>
        (contribData bps E x.2.1 x.2.2 (intSeq (fun _ => 0) x.2.1 x.2.2)).length) := by
    apply List.map_congr_left
    intro x hx
    exact contribData_length_congr bps E x.2.1 x.2.2 _ _
      (by rw [hbuf x hx, intSeq_length])
  have h2 : l.map (fun x =>
        (contribData bps E x.2.1 x.2.2 (intSeq (fun _ => 0) x.2.1 x.2.2)).length) =
      List.map List.length (l.map (fun x =>
        contribData bps E x.2.1 x.2.2 (intSeq (fun _ => 0) x.2.1 x.2.2))) := by
    rw [List.map_map]
    rfl
  rw [hmap, h2, ← List.length_flatten,
    flatten_contribs_consecutive (fun _ => 0) bps E l c hc hbps _
      (fun x _ => rfl),
    intSeq_length]

theorem reshapeBody_intSeq (D : Int → Int) (t : Tensor)
    (b e numel index padded : Int)
    (ht : t.data = intSeq D index (index + numel))
    (hib : index ≤ b) (hbe : b ≤ e) (hep : e ≤ index + padded)
    (h0n : 0 ≤ numel)
    (hzero : ∀ x : Int, index + numel ≤ x → x < index + padded → D x = 0) :
    reshapeBody t b e numel index padded =
      ⟨t.dtype, [(((e - b).toNat : Nat) : Int)], t.tname, intSeq D b e⟩ := by
  have hdata : t.data = intSeqGo D numel.toNat index := by
    rw [ht]
    unfold intSeq
    congr 1
    omega
  have hslice : (t.data.drop (b - index).toNat).take (e - b).toNat =
      intSeq D b (min e (index + numel)) := by
    rw [hdata, intSeqGo_drop, intSeqGo_take]
    unfold intSeq
    congr 1
    · omega
    · omega
  simp only [reshapeBody, hslice]
  by_cases hcond : max b (index + numel) < min e (index + padded)
  · rw [if_pos hcond]
    simp only [Tensor.mk.injEq]
    refine ⟨trivial, ?_, trivial, ?_⟩
    · rw [intSeq_length]
      congr 1
      omega
    · by_cases hbn : b ≤ index + numel
      · have hmx : max b (index + numel) = index + numel := by omega
        have hmn : min e (index + numel) = index + numel := by omega
        have hrep : List.replicate (min e (index + padded) - max b (index + numel)).toNat (0 : Int) =
            intSeq D (index + numel) e := by
          rw [intSeq_zeros D (index + numel) e
            (fun x hx1 hx2 => hzero x hx1 (by omega))]
          congr 1
          omega
        rw [hmn, hrep, intSeq_append D b (index + numel) e hbn (by omega)]
      · have hmn : min e (index + numel) = index + numel := by omega
        have hnil : intSeq D b (index + numel) = [] := intSeq_nil D b _ (by omega)
        have hrep : List.replicate (min e (index + padded) - max b (index + numel)).toNat (0 : Int) =
            intSeq D b e := by
          rw [intSeq_zeros D b e (fun x hx1 hx2 => hzero x (by omega) (by omega))]
          congr 1
          omega
        rw [hmn, hnil, hrep, List.nil_append]
  · rw [if_neg hcond]
    have hcond2 : min e (index + padded) ≤ max b (index + numel) := not_lt.mp hcond
    simp only [Tensor.mk.injEq]
    refine ⟨trivial, ?_, trivial, ?_⟩
    · rw [intSeq_length]
      congr 1
      omega
    · by_cases hbn : b ≤ index + numel
      · rw [show min e (index + numel) = e by omega]
      · rw [intSeq_nil D b (min e (index + numel)) (by omega),
          intSeq_nil D b e (by omega)]

/-! ## Helper lemmas about the ownership resolver -/

/-- The entries of `sharding_ranklist` in gathered (group rank) order: every
catalog whose slice for `key` is non-empty contributes `(rank, begin, end)`. -/
def sendEntries (gathered : List RankCatalog) (key : String) :
    List (Nat × Int × Int) :=
  gathered.filterMap (fun c => (c.slices key).bind (fun be =>
    if be.1 < be.2 then some (c.grank, be.1, be.2) else none))

theorem shardingRanklist_some (gathered : List RankCatalog) (key : String)
    (h : ∀ c ∈ gathered, (c.slices key).isSome) :
    shardingRanklist gathered key = some (sendEntries gathered key) := by
  induction gathered with
  | nil => rfl
  | cons c rest ih =>
    have hc := h c (List.mem_cons_self c rest)
    rcases Option.isSome_iff_exists.mp hc with ⟨be, hbe⟩
    have ihr := ih (fun c2 hc2 => h c2 (List.mem_cons_of_mem c hc2))
    simp only [shardingRanklist, List.foldr_cons] at ihr ⊢
    rw [hbe, ihr]
    simp only [sendEntries, List.filterMap_cons, hbe, Option.some_bind]
    by_cases hlt : be.1 < be.2
    · simp [hlt]
    · simp [hlt]

theorem shardingRanklist_eq (gathered : List RankCatalog) (key : String)
    (l : List (Nat × Int × Int)) (h : shardingRanklist gathered key = some l) :
    l = sendEntries gathered key ∧ ∀ c ∈ gathered, (c.slices key).isSome := by
  induction gathered generalizing l with
  | nil =>
    simp only [shardingRanklist, List.foldr_nil, Option.some.injEq] at h
    subst h
    exact ⟨rfl, by simp⟩
  | cons c rest ih =>
    simp only [shardingRanklist, List.foldr_cons] at h
    cases hbe : c.slices key with
    | none => rw [hbe] at h; cases h
    | some be =>
      rw [hbe] at h
      cases hr : (shardingRanklist rest key) with
      | none =>
        simp only [shardingRanklist] at hr
        rw [hr] at h; cases h
      | some l0 =>
        simp only [shardingRanklist] at hr
        rw [hr] at h
        simp only [Option.some.injEq] at h
        obtain ⟨hl0, hall⟩ := ih l0 hr
        constructor
        · rw [← h, hl0]
          simp only [sendEntries, List.filterMap_cons, hbe, Option.some_bind]
          by_cases hlt : be.1 < be.2
          · simp [hlt]
          · simp [hlt]
        · intro c2 hc2
          rcases List.mem_cons.mp hc2 with hc2 | hc2
          · subst hc2; simp [hbe]
          · exact hall c2 hc2

theorem sortedByBegin_head_min (l : List (Nat × Int × Int))
    (h : sortedByBegin l = true) :
    ∀ x ∈ l, ∀ hd ∈ l.head?, hd.2.1 ≤ x.2.1 := by
  induction l with
  | nil => simp
  | cons a rest ih =>
    intro x hx hd hhd
    simp only [List.head?_cons, Option.mem_def, Option.some.injEq] at hhd
    subst hhd
    rcases List.mem_cons.mp hx with hx | hx
    · subst hx; exact le_refl _
    · cases rest with
      | nil => simp at hx
      | cons b rest2 =>
        simp only [sortedByBegin, Bool.and_eq_true, decide_eq_true_eq] at h
        have hb := ih h.2 x hx b (by simp)
        omega

/-- Membership in `partial_tensor_list` forces a catalogued local slice with
`end > begin` (and `end - begin != numel`). -/
theorem buildPartialList_mem_slice (sliceInfo : String → Option (Int × Int))
    (shapeInfo : String → ParamMeta) (baseOf : String → String)
    (sd : List (String × Tensor)) (name : String)
    (h : name ∈ buildPartialList sliceInfo shapeInfo baseOf sd) :
    ∃ b e, sliceInfo name = some (b, e) ∧ b < e ∧
      e - b ≠ (shapeInfo name).numel := by
  suffices haux : ∀ (l : List (String × Tensor)) (acc : List String),
      name ∈ l.foldl (fun acc kt =>
        match sliceInfo (baseOf kt.1) with
        | none => acc
        | some be =>
          if kt.2.data.length = 1 then acc
          else if be.2 - be.1 = (shapeInfo (baseOf kt.1)).numel then acc
          else if be.2 ≤ be.1 then acc
          else acc ++ [baseOf kt.1]) acc →
      name ∈ acc ∨ ∃ b e, sliceInfo name = some (b, e) ∧ b < e ∧
        e - b ≠ (shapeInfo name).numel by
    rcases haux sd [] h with hin | hw
    · simp at hin
    · exact hw
  intro l
  induction l with
  | nil => intro acc h2; exact Or.inl h2
  | cons kt rest ih =>
    intro acc h2
    simp only [List.foldl_cons] at h2
    cases hbe : sliceInfo (baseOf kt.1) with
    | none =>
      simp only [hbe] at h2
      exact ih acc h2
    | some be =>
      simp only [hbe] at h2
      by_cases h1 : kt.2.data.length = 1
      · rw [if_pos h1] at h2; exact ih acc h2
      · rw [if_neg h1] at h2
        by_cases hfull : be.2 - be.1 = (shapeInfo (baseOf kt.1)).numel
        · rw [if_pos hfull] at h2; exact ih acc h2
        · rw [if_neg hfull] at h2
          by_cases hemp : be.2 ≤ be.1
          · rw [if_pos hemp] at h2; exact ih acc h2
          · rw [if_neg hemp] at h2
            rcases ih _ h2 with hin | hw
            · rcases List.mem_append.mp hin with hin | hin
              · exact Or.inl hin
              · simp only [List.mem_singleton] at hin
                subst hin
                exact Or.inr ⟨be.1, be.2, by simpa using hbe, by omega, hfull⟩
            · exact Or.inr hw

theorem foldl_aset_lookup_notmem {α : Type} (f : ParamView → String × α)
    (ps : List ParamView) (acc : List (String × α)) (n : String)
    (h : ∀ p ∈ ps, (f p).1 ≠ n) :
    alookup (ps.foldl (fun a p => aset a (f p).1 (f p).2) acc) n = alookup acc n := by
  induction ps generalizing acc with
  | nil => rfl
  | cons p rest ih =>
    simp only [List.foldl_cons]
    rw [ih _ (fun q hq => h q (List.mem_cons_of_mem p hq)),
      alookup_aset_ne _ _ _ _ (h p (List.mem_cons_self p rest))]

/-- The local catalog built at lines 129-134 records the slice of every
parameter of the communication buffers, held or not. -/
theorem buildSliceCatalog_lookup (ps : List ParamView) (p : ParamView)
    (hnd : (ps.map ParamView.pname).Nodup) (hp : p ∈ ps) :
    alookup (buildSliceCatalog ps) p.pname = some (p.pbegin, p.pend) := by
  suffices haux : ∀ (l : List ParamView) (acc : List (String × (Int × Int))),
      (l.map ParamView.pname).Nodup → p ∈ l →
      alookup (l.foldl (fun a q => aset a q.pname (q.pbegin, q.pend)) acc) p.pname =
        some (p.pbegin, p.pend) from haux ps [] hnd hp
  intro l
  induction l with
  | nil => intro acc _ hin; simp at hin
  | cons q rest ih =>
    intro acc hnd2 hin
    simp only [List.map_cons, List.nodup_cons] at hnd2
    simp only [List.foldl_cons]
    rcases List.mem_cons.mp hin with hin | hin
    · subst hin
      rw [foldl_aset_lookup_notmem (fun q => (q.pname, (q.pbegin, q.pend))) rest _
        p.pname (fun r hr => by
          intro hc
          exact hnd2.1 (hc ▸ List.mem_map_of_mem ParamView.pname hr)),
        alookup_aset_self]
    · exact ih _ hnd2.2 hin

/-- The local slice catalog as a lookup function (one gathered
`param_slice_info` object without its `global_rank` entry). -/
def localSlices (ps : List ParamView) : String → Option (Int × Int) :=
  fun n => alookup (buildSliceCatalog ps) n

/-! ## Claims -/

/-- C2 (amended): for an optimizer-state key with more than one element whose
static name appears in the local slice catalog, the classification loop of
`gather_splited_param_for_optimizer` reshapes the entry to its logical shape
(full) iff `end - begin == numel`; leaves it untouched and out of
`partial_tensor_list` (empty) iff `end <= begin`; and appends its static name
to `partial_tensor_list` iff `end > begin` and `end - begin != numel` — not
iff `0 < end - begin < numel` as the claim states: a slice with
`end - begin > numel` is also classified partial. -/
theorem C2_classification (sliceInfo : String → Option (Int × Int))
    (shapeInfo : String → ParamMeta) (baseOf : String → String)
    (k : String) (t : Tensor) (b e : Int)
    (hs : sliceInfo (baseOf k) = some (b, e))
    (hnumel : 0 < (shapeInfo (baseOf k)).numel)
    (hlen : t.data.length ≠ 1)
    (hshape : t.shape ≠ (shapeInfo (baseOf k)).shape) :
    (alookup (classifyPass sliceInfo shapeInfo baseOf [(k, t)]) k =
        some (reshapeT t (shapeInfo (baseOf k)).shape) ↔
      e - b = (shapeInfo (baseOf k)).numel) ∧
    ((alookup (classifyPass sliceInfo shapeInfo baseOf [(k, t)]) k = some t ∧
        baseOf k ∉ buildPartialList sliceInfo shapeInfo baseOf [(k, t)]) ↔
      e ≤ b) ∧
    (baseOf k ∈ buildPartialList sliceInfo shapeInfo baseOf [(k, t)] ↔
      b < e ∧ e - b ≠ (shapeInfo (baseOf k)).numel) := by
  have hne : reshapeT t (shapeInfo (baseOf k)).shape ≠ t := by
    intro hcontra
    exact hshape (by simpa [reshapeT] using (congrArg Tensor.shape hcontra).symm)
  have hne2 : t ≠ reshapeT t (shapeInfo (baseOf k)).shape := fun hh => hne hh.symm
  have hlook : alookup (classifyPass sliceInfo shapeInfo baseOf [(k, t)]) k =
      classifyAct sliceInfo shapeInfo baseOf k t := by
    rw [classifyPass, runPass_lookup _ _ k (by simp [akeys])]
    simp [alookup]
  have hact : classifyAct sliceInfo shapeInfo baseOf k t =
      if e - b = (shapeInfo (baseOf k)).numel then
        some (reshapeT t (shapeInfo (baseOf k)).shape)
      else some t := by
    simp only [classifyAct, hs, if_neg hlen]
  have hpl : buildPartialList sliceInfo shapeInfo baseOf [(k, t)] =
      if e - b = (shapeInfo (baseOf k)).numel then []
      else if e ≤ b then [] else [baseOf k] := by
    simp only [buildPartialList, List.foldl_cons, List.foldl_nil, hs, if_neg hlen]
    rfl
  rw [hlook, hact, hpl]
  by_cases hfull : e - b = (shapeInfo (baseOf k)).numel
  · rw [if_pos hfull, if_pos hfull]
    refine ⟨by simp [hfull], ?_, by simp [hfull]⟩
    constructor
    · rintro ⟨hcontra, -⟩
      exact absurd (Option.some.inj hcontra) hne
    · intro hcontra
      exfalso
      omega
  · rw [if_neg hfull, if_neg hfull]
    by_cases hemp : e ≤ b
    · rw [if_pos hemp]
      refine ⟨?_, by simp [hemp], by simp; omega⟩
      constructor
      · intro hcontra
        exact absurd (Option.some.inj hcontra).symm hne
      · intro hcontra
        exact absurd hcontra hfull
    · rw [if_neg hemp]
      refine ⟨?_, ?_, by simp [hfull]; omega⟩
      · constructor
        · intro hcontra
          exact absurd (Option.some.inj hcontra).symm hne
        · intro hcontra
          exact absurd hcontra hfull
      · constructor
        · rintro ⟨-, hnm⟩
          exact absurd (List.mem_singleton.mpr rfl) hnm
        · intro hcontra
          exact absurd hcontra hemp

/-- C2 counterexample: with local slice `(0, 12)` and `numel = 10` (the slice
covers the whole padded block, `end - begin > numel`), the classification
loop appends the static name to `partial_tensor_list` although
`0 < end - begin < numel` does not hold. -/
theorem C2_counterexample :
    "w" ∈ buildPartialList (fun n => if n = "w" then some (0, 12) else none)
        (fun _ => ⟨[10], 10, 0, 12⟩) (fun _ => "w")
        [("w_moment1_0",
          ⟨"float32", [12], "", [0, 1, 2, 3, 4, 5, 6, 7, 8, 9, 10, 11]⟩)] ∧
    ¬ ((0 : Int) < 12 - 0 ∧ 12 - 0 < (10 : Int)) :=
  ⟨by decide, by decide⟩

/-- C2 witness: a genuinely partial slice `(0, 6)` of a 10-element parameter
is appended to `partial_tensor_list`, via the amended classification. -/
theorem C2_witness :
    "w" ∈ buildPartialList (fun n => if n = "w" then some (0, 6) else none)
        (fun _ => ⟨[10], 10, 0, 12⟩) (fun _ => "w")
        [("w_moment1_0", ⟨"float32", [6], "", [1, 2, 3, 4, 5, 6]⟩)] :=
  ((C2_classification (fun n => if n = "w" then some (0, 6) else none)
      (fun _ => ⟨[10], 10, 0, 12⟩) (fun _ => "w") "w_moment1_0"
      ⟨"float32", [6], "", [1, 2, 3, 4, 5, 6]⟩ 0 6 (by decide) (by decide)
      (by decide) (by decide)).2.2).mpr (by decide)

/-- C1 (amended): the send plan for a partial name lists, in gathered-catalog
(group rank) order, the fragments of every rank whose slice is non-empty, and
`recv_rank` is the first rank in that order — not the holder of the smallest
`begin`.  Only when the plan happens to be sorted by ascending `begin`
(the standard layout, where slice begins grow with the rank) is `recv_rank`
the rank of the fragment with the smallest begin offset. -/
theorem C1_send_plan (gathered : List RankCatalog) (key : String)
    (r : Nat) (l : List (Nat × Int × Int))
    (h : buildTablesKey gathered key = some (r, l)) :
    l = sendEntries gathered key ∧
    (∃ hd, l.head? = some hd ∧ r = hd.1) ∧
    (sortedByBegin l = true → ∀ x ∈ l, ∀ hd ∈ l.head?, hd.2.1 ≤ x.2.1) := by
  simp only [buildTablesKey] at h
  cases hsr : shardingRanklist gathered key with
  | none => rw [hsr] at h; cases h
  | some l0 =>
    rw [hsr] at h
    simp only [Option.some_bind] at h
    cases hhd : l0.head? with
    | none => rw [hhd] at h; cases h
    | some hd =>
      rw [hhd] at h
      simp only [Option.map_some', Option.some.injEq, Prod.mk.injEq] at h
      obtain ⟨hr, hl⟩ := h
      refine ⟨?_, ⟨hd, ?_, hr.symm⟩, ?_⟩
      · rw [← hl]
        exact (shardingRanklist_eq gathered key l0 hsr).1
      · rw [← hl]
        exact hhd
      · intro hsort
        exact sortedByBegin_head_min _ hsort

/-- C1 counterexample: with gathered slices `(6, 12)` on rank 0 and `(0, 6)`
on rank 1 (a tiling whose begins are not ascending in rank order), the code
produces a send plan that is not sorted by ascending `begin`, and assigns
`recv_rank = 0` although the fragment with the smallest begin belongs to
rank 1. -/
theorem C1_counterexample :
    buildTablesKey [⟨0, fun n => if n = "x" then some (6, 12) else none⟩,
        ⟨1, fun n => if n = "x" then some (0, 6) else none⟩] "x" =
      some (0, [(0, 6, 12), (1, 0, 6)]) ∧
    sortedByBegin [(0, (6 : Int), (12 : Int)), (1, 0, 6)] = false ∧
    ((1, (0 : Int), (6 : Int)) ∈ [(0, (6 : Int), (12 : Int)), (1, 0, 6)] ∧
      (0 : Int) < 6) :=
  ⟨by decide, by decide, by decide, by decide⟩

/-- C1 witness: on a gathered catalog whose begins ascend with rank order,
the built send plan is begin-sorted and the chosen `recv_rank` is the first
(and smallest-begin) sender. -/
theorem C1_witness :
    [((0 : Nat), (0 : Int), (6 : Int)), (1, 6, 12)] =
      sendEntries [⟨0, fun n => if n = "x" then some (0, 6) else none⟩,
        ⟨1, fun n => if n = "x" then some (6, 12) else none⟩] "x" ∧
    (∃ hd, ([((0 : Nat), (0 : Int), (6 : Int)), (1, 6, 12)]).head? = some hd ∧
      (0 : Nat) = hd.1) ∧
    (sortedByBegin [((0 : Nat), (0 : Int), (6 : Int)), (1, 6, 12)] = true →
      ∀ x ∈ [((0 : Nat), (0 : Int), (6 : Int)), (1, 6, 12)],
        ∀ hd ∈ ([((0 : Nat), (0 : Int), (6 : Int)), (1, 6, 12)]).head?,
          hd.2.1 ≤ x.2.1) :=
  C1_send_plan [⟨0, fun n => if n = "x" then some (0, 6) else none⟩,
    ⟨1, fun n => if n = "x" then some (6, 12) else none⟩] "x" 0
    [(0, 0, 6), (1, 6, 12)] (by decide)

/-- C10: the local catalog records a `(begin, end)` slice for every parameter
of the communication buffers, including parameters the rank does not hold;
consequently, for a name in `partial_tensor_list`, when every gathered catalog
covers the local catalog's names and the local catalog was gathered too, the
`slice_info[name]` lookups all succeed and the filtered `sharding_ranklist` is
non-empty, so taking its first element for `recv_table[name]` never fails. -/
theorem C10_lookup_safety (params : List ParamView) (grank : Nat)
    (gathered : List RankCatalog) (shapeInfo : String → ParamMeta)
    (baseOf : String → String) (sd : List (String × Tensor)) (name : String)
    (hnd : (params.map ParamView.pname).Nodup)
    (hmem : (⟨grank, localSlices params⟩ : RankCatalog) ∈ gathered)
    (hcover : ∀ c ∈ gathered, ∀ n, (localSlices params n).isSome →
      (c.slices n).isSome)
    (hname : name ∈ buildPartialList (localSlices params) shapeInfo baseOf sd) :
    (∀ p ∈ params, localSlices params p.pname = some (p.pbegin, p.pend)) ∧
    ∃ r l, buildTablesKey gathered name = some (r, l) ∧ l ≠ [] := by
  refine ⟨fun p hp => buildSliceCatalog_lookup params p hnd hp, ?_⟩
  obtain ⟨b, e, hslice, hbe, -⟩ :=
    buildPartialList_mem_slice (localSlices params) shapeInfo baseOf sd name hname
  have hall : ∀ c ∈ gathered, (c.slices name).isSome := by
    intro c hc
    exact hcover c hc name (by simp [hslice])
  have hsr := shardingRanklist_some gathered name hall
  have hmem2 : (grank, b, e) ∈ sendEntries gathered name := by
    apply List.mem_filterMap.mpr
    refine ⟨⟨grank, localSlices params⟩, hmem, ?_⟩
    simp [hslice, hbe]
  have hne : sendEntries gathered name ≠ [] :=
    fun hnil => by rw [hnil] at hmem2; cases hmem2
  cases hhd : (sendEntries gathered name).head? with
  | none => exact absurd (List.head?_eq_none_iff.mp hhd) hne
  | some hd =>
    exact ⟨hd.1, sendEntries gathered name, by
      simp [buildTablesKey, hsr, hhd], hne⟩

/-- C10 witness: a one-rank catalog over a single parameter held partially;
the table construction succeeds. -/
theorem C10_witness :
    (∀ p ∈ [(⟨"w", 0, 6, [10], 10, 0, 12⟩ : ParamView)],
      localSlices [⟨"w", 0, 6, [10], 10, 0, 12⟩] p.pname =
        some (p.pbegin, p.pend)) ∧
    ∃ r l, buildTablesKey [⟨0, localSlices [⟨"w", 0, 6, [10], 10, 0, 12⟩]⟩]
        "w" = some (r, l) ∧ l ≠ [] :=
  C10_lookup_safety [⟨"w", 0, 6, [10], 10, 0, 12⟩] 0
    [⟨0, localSlices [⟨"w", 0, 6, [10], 10, 0, 12⟩]⟩]
    (fun _ => ⟨[10], 10, 0, 12⟩) (fun _ => "w")
    [("w_moment1_0", ⟨"float32", [6], "", [1, 2, 3, 4, 5, 6]⟩)] "w"
    (by decide) (List.mem_singleton.mpr rfl)
    (fun c hc n hs => by rw [List.mem_singleton.mp hc]; exact hs)
    (by decide)

/-- C5: every state-dict entry with exactly one element is skipped by the
merge loop of `merge_splited_param` (kept with its exact value, never sliced,
sent, received or reshaped); when `ckpt_quant_stage != "O0"`, the post-pass
removes a single-element entry whose static name is in `partial_tensor_list`
exactly on the ranks whose global rank differs from the parameter's
`recv_rank`, leaving it present only on the owner. -/
theorem C5_scalar_passthrough (rank : Nat) (isMW : Bool)
    (baseOf : String → String) (ptl : List String)
    (shapeInfo : String → ParamMeta) (sendT : String → List (Nat × Int × Int))
    (recvT : String → Nat) (peers : Nat → String → List Int) (stage : String)
    (sd : List (String × Tensor)) (k : String) (t : Tensor)
    (hnd : (akeys sd).Nodup) (hk : alookup sd k = some t)
    (hlen : t.data.length = 1) :
    alookup (mergeSplitedParam rank isMW baseOf ptl shapeInfo sendT recvT
        peers stage sd) k =
      if stage ≠ "O0" ∧ staticOf isMW baseOf k ∈ ptl ∧
          rank ≠ recvT (staticOf isMW baseOf k) then none
      else some t := by
  rw [mergeSplitedParam_lookup rank isMW baseOf ptl shapeInfo sendT recvT
    peers stage sd k hnd, hk]
  have hact : mergeAct rank isMW baseOf ptl shapeInfo sendT recvT peers k t =
      some t := by
    simp [mergeAct, hlen]
  by_cases hs : stage = "O0"
  · rw [if_pos hs]
    simp [hact, hs]
  · rw [if_neg hs]
    simp only [Option.some_bind, hact]
    simp only [dropScalarAct, if_pos hlen]
    by_cases hp : staticOf isMW baseOf k ∈ ptl
    · rw [if_pos hp]
      by_cases hr : rank = recvT (staticOf isMW baseOf k)
      · rw [if_pos hr]
        simp [hs, hp, hr]
      · rw [if_neg hr]
        simp [hs, hp, hr]
    · rw [if_neg hp]
      simp [hs, hp]

/-- C5 witness: a scalar entry of a partial parameter on a non-owner rank is
dropped when the quantization stage is not `"O0"`. -/
theorem C5_witness :
    alookup (mergeSplitedParam 1 true (fun s => s) ["w"]
        (fun _ => ⟨[1], 1, 0, 1⟩) (fun _ => []) (fun _ => 0) (fun _ _ => [])
        "O1" [("w", ⟨"float32", [1], "w", [5]⟩)]) "w" = none := by
  rw [C5_scalar_passthrough 1 true (fun s => s) ["w"] (fun _ => ⟨[1], 1, 0, 1⟩)
    (fun _ => []) (fun _ => 0) (fun _ _ => []) "O1"
    [("w", ⟨"float32", [1], "w", [5]⟩)] "w" ⟨"float32", [1], "w", [5]⟩
    (by decide) (by decide) (by decide)]
  decide

/-- C4: after `merge_splited_param`, for a partial parameter key (more than
one element, static name in `partial_tensor_list`): on a non-owner rank that
holds a fragment the key is popped; on the owning rank it holds the merged
tensor; a multi-element key of a non-partial parameter stays, reshaped, under
its original key; with `ckpt_quant_stage == "O0"` every single-element entry
stays untouched; and a partial key on a rank that neither owns nor sends
stays untouched. -/
theorem C4_merge_frame (rank : Nat) (isMW : Bool) (baseOf : String → String)
    (ptl : List String) (shapeInfo : String → ParamMeta)
    (sendT : String → List (Nat × Int × Int)) (recvT : String → Nat)
    (peers : Nat → String → List Int) (stage : String)
    (sd : List (String × Tensor)) (hnd : (akeys sd).Nodup) :
    (∀ k t, alookup sd k = some t → t.data.length ≠ 1 →
      staticOf isMW baseOf k ∈ ptl →
      rank ≠ recvT (staticOf isMW baseOf k) →
      (sendT (staticOf isMW baseOf k)).any (fun x => x.1 = rank) = true →
      alookup (mergeSplitedParam rank isMW baseOf ptl shapeInfo sendT recvT
        peers stage sd) k = none) ∧
    (∀ k t, alookup sd k = some t → t.data.length ≠ 1 →
      staticOf isMW baseOf k ∈ ptl →
      rank = recvT (staticOf isMW baseOf k) →
      alookup (mergeSplitedParam rank isMW baseOf ptl shapeInfo sendT recvT
        peers stage sd) k =
        some (mergedTensor rank peers k t (shapeInfo (staticOf isMW baseOf k))
          (sendT (staticOf isMW baseOf k)))) ∧
    (∀ k t, alookup sd k = some t → t.data.length ≠ 1 →
      staticOf isMW baseOf k ∉ ptl →
      alookup (mergeSplitedParam rank isMW baseOf ptl shapeInfo sendT recvT
        peers stage sd) k =
        some (reshapeT t (shapeInfo (staticOf isMW baseOf k)).shape)) ∧
    (stage = "O0" → ∀ k t, alookup sd k = some t → t.data.length = 1 →
      alookup (mergeSplitedParam rank isMW baseOf ptl shapeInfo sendT recvT
        peers stage sd) k = some t) ∧
    (∀ k t, alookup sd k = some t → t.data.length ≠ 1 →
      staticOf isMW baseOf k ∈ ptl →
      rank ≠ recvT (staticOf isMW baseOf k) →
      (sendT (staticOf isMW baseOf k)).any (fun x => x.1 = rank) = false →
      alookup (mergeSplitedParam rank isMW baseOf ptl shapeInfo sendT recvT
        peers stage sd) k = some t) := by
  refine ⟨?_, ?_, ?_, ?_, ?_⟩
  · intro k t hk hlen hp hr hsend
    rw [mergeSplitedParam_lookup rank isMW baseOf ptl shapeInfo sendT recvT
      peers stage sd k hnd, hk]
    have hact : mergeAct rank isMW baseOf ptl shapeInfo sendT recvT peers k t =
        none := by
      simp only [mergeAct, if_neg hlen]
      rw [if_pos hp, if_neg (fun hh => hr hh), if_pos hsend]
    by_cases hs : stage = "O0" <;> simp [hs, hact]
  · intro k t hk hlen hp hr
    rw [mergeSplitedParam_lookup rank isMW baseOf ptl shapeInfo sendT recvT
      peers stage sd k hnd, hk]
    have hact : mergeAct rank isMW baseOf ptl shapeInfo sendT recvT peers k t =
        some (mergedTensor rank peers k t (shapeInfo (staticOf isMW baseOf k))
          (sendT (staticOf isMW baseOf k))) := by
      simp only [mergeAct, if_neg hlen]
      rw [if_pos hp, if_pos hr]
    have hdrop : dropScalarAct rank isMW baseOf ptl recvT k
        (mergedTensor rank peers k t (shapeInfo (staticOf isMW baseOf k))
          (sendT (staticOf isMW baseOf k))) =
        some (mergedTensor rank peers k t (shapeInfo (staticOf isMW baseOf k))
          (sendT (staticOf isMW baseOf k))) := by
      by_cases hml : (mergedTensor rank peers k t
          (shapeInfo (staticOf isMW baseOf k))
          (sendT (staticOf isMW baseOf k))).data.length = 1
      · simp only [dropScalarAct, if_pos hml]
        rw [if_pos hp, if_pos hr]
      · simp only [dropScalarAct, if_neg hml]
    by_cases hs : stage = "O0" <;> simp [hs, hact, hdrop]
  · intro k t hk hlen hp
    rw [mergeSplitedParam_lookup rank isMW baseOf ptl shapeInfo sendT recvT
      peers stage sd k hnd, hk]
    have hact : mergeAct rank isMW baseOf ptl shapeInfo sendT recvT peers k t =
        some (reshapeT t (shapeInfo (staticOf isMW baseOf k)).shape) := by
      simp only [mergeAct, if_neg hlen]
      rw [if_neg hp]
    have hdrop : dropScalarAct rank isMW baseOf ptl recvT k
        (reshapeT t (shapeInfo (staticOf isMW baseOf k)).shape) =
        some (reshapeT t (shapeInfo (staticOf isMW baseOf k)).shape) := by
      simp only [dropScalarAct, reshapeT]
      rw [if_neg hlen]
    by_cases hs : stage = "O0" <;> simp [hs, hact, hdrop]
  · intro hs k t hk hlen
    rw [mergeSplitedParam_lookup rank isMW baseOf ptl shapeInfo sendT recvT
      peers stage sd k hnd, hk, if_pos hs]
    simp [mergeAct, hlen]
  · intro k t hk hlen hp hr hsend
    rw [mergeSplitedParam_lookup rank isMW baseOf ptl shapeInfo sendT recvT
      peers stage sd k hnd, hk]
    have hact : mergeAct rank isMW baseOf ptl shapeInfo sendT recvT peers k t =
        some t := by
      simp only [mergeAct, if_neg hlen]
      rw [if_pos hp, if_neg (fun hh => hr hh), hsend]
      simp
    have hdrop : dropScalarAct rank isMW baseOf ptl recvT k t = some t := by
      simp only [dropScalarAct]
      rw [if_neg hlen]
    by_cases hs : stage = "O0" <;> simp [hs, hact, hdrop]

/-- C4 witness: in the two-rank scenario, rank 1 (a non-owner sender of the
partial parameter) pops the key after its send. -/
theorem C4_witness :
    alookup (mergeSplitedParam 1 true (fun s => s) ["w"]
        (fun _ => ⟨[10], 10, 0, 12⟩) (fun _ => [(0, 0, 6), (1, 6, 12)])
        (fun _ => 0) (fun _ _ => []) "O0"
        [("w", ⟨"float32", [6], "", [7, 8, 9, 10, 0, 0]⟩)]) "w" = none :=
  (C4_merge_frame 1 true (fun s => s) ["w"] (fun _ => ⟨[10], 10, 0, 12⟩)
    (fun _ => [(0, 0, 6), (1, 6, 12)]) (fun _ => 0) (fun _ _ => []) "O0"
    [("w", ⟨"float32", [6], "", [7, 8, 9, 10, 0, 0]⟩)] (by decide)).1
    "w" ⟨"float32", [6], "", [7, 8, 9, 10, 0, 0]⟩ (by decide) (by decide)
    (by decide) (by decide) (by decide)

/-- C3: in `merge_splited_param`, on the receiving rank of a partial
parameter, each send-plan fragment `(sender, begin, end)` contributes exactly
`end - begin` elements when `max(begin, base_padding_start) >=
min(end, base_padding_end)` and exactly `max(begin, base_padding_start) -
begin` elements otherwise (taken locally or received point-to-point alike);
the contributions are concatenated in send-plan order, and under the tiling
precondition the merged tensor holds exactly `numel` elements with all
padding dropped. -/
theorem C3_merge_lengths (rank : Nat) (isMW : Bool) (baseOf : String → String)
    (ptl : List String) (shapeInfo : String → ParamMeta)
    (sendT : String → List (Nat × Int × Int)) (recvT : String → Nat)
    (peers : Nat → String → List Int)
    (sd : List (String × Tensor)) (k : String) (t : Tensor) (m : ParamMeta)
    (hnd : (akeys sd).Nodup) (hk : alookup sd k = some t)
    (hlen1 : t.data.length ≠ 1)
    (hm : shapeInfo (staticOf isMW baseOf k) = m)
    (hptl : staticOf isMW baseOf k ∈ ptl)
    (hrecv : rank = recvT (staticOf isMW baseOf k))
    (hbuf : ∀ x ∈ sendT (staticOf isMW baseOf k),
      ((if x.1 = rank then t.data else peers x.1 k) : List Int).length =
        (x.2.2 - x.2.1).toNat)
    (htile : TilesRange (sendT (staticOf isMW baseOf k)) m.index m.padded)
    (hnum : 0 ≤ m.numel) (hnp : m.numel ≤ m.padded) :
    alookup (mergeSplitedParam rank isMW baseOf ptl shapeInfo sendT recvT
        peers "O0" sd) k =
      some (mergedTensor rank peers k t m (sendT (staticOf isMW baseOf k))) ∧
    (∀ x ∈ sendT (staticOf isMW baseOf k),
      (contribData (m.index + m.numel) (m.index + m.padded) x.2.1 x.2.2
        (if x.1 = rank then t.data else peers x.1 k)).length =
      (if min x.2.2 (m.index + m.padded) ≤ max x.2.1 (m.index + m.numel)
       then x.2.2 - x.2.1
       else max x.2.1 (m.index + m.numel) - x.2.1).toNat) ∧
    (mergedTensor rank peers k t m
      (sendT (staticOf isMW baseOf k))).data.length = m.numel.toNat := by
  refine ⟨?_, ?_, ?_⟩
  · rw [mergeSplitedParam_lookup rank isMW baseOf ptl shapeInfo sendT recvT
      peers "O0" sd k hnd, hk, if_pos rfl]
    simp only [Option.some_bind, mergeAct, if_neg hlen1]
    rw [if_pos hptl, if_pos hrecv, hm]
  · intro x hx
    rw [contribData_length, hbuf x hx]
    by_cases hc : min x.2.2 (m.index + m.padded) ≤ max x.2.1 (m.index + m.numel)
    · rw [if_pos hc, if_pos hc]
    · rw [if_neg hc, if_neg hc]
      omega
  · obtain ⟨l1, hperm, hcons⟩ := htile
    have hsum := sum_contribLen_consecutive (m.index + m.numel)
      (m.index + m.padded) l1 m.index hcons (by omega)
      (fun x => if x.1 = rank then t.data else peers x.1 k)
      (fun x hx => hbuf x (hperm.mem_iff.mpr hx))
    have hpermsum : ((sendT (staticOf isMW baseOf k)).map (fun x =>
        (contribData (m.index + m.numel) (m.index + m.padded) x.2.1 x.2.2
          (if x.1 = rank then t.data else peers x.1 k)).length)).sum =
        (l1.map (fun x =>
          (contribData (m.index + m.numel) (m.index + m.padded) x.2.1 x.2.2
            (if x.1 = rank then t.data else peers x.1 k)).length)).sum :=
      (hperm.map _).sum_eq
    simp only [mergedTensor, List.length_flatten, List.map_map,
      Function.comp_def]
    rw [hpermsum]
    exact hsum.trans (by omega)

/-- C3 witness: the spec's two-rank scenario (`numel = 10`, `padded = 12`,
slices `[0,6)` and `[6,12)`): the merged tensor on the owner holds exactly 10
elements. -/
theorem C3_witness :
    (mergedTensor 0 (fun s _ => if s = 1 then [7, 8, 9, 10, 0, 0] else [])
      "w" ⟨"float32", [6], "", [1, 2, 3, 4, 5, 6]⟩ ⟨[10], 10, 0, 12⟩
      [(0, 0, 6), (1, 6, 12)]).data.length = 10 :=
  (C3_merge_lengths 0 true (fun s => s) ["w"] (fun _ => ⟨[10], 10, 0, 12⟩)
    (fun _ => [(0, 0, 6), (1, 6, 12)]) (fun _ => 0)
    (fun s _ => if s = 1 then [7, 8, 9, 10, 0, 0] else [])
    [("w", ⟨"float32", [6], "", [1, 2, 3, 4, 5, 6]⟩)] "w"
    ⟨"float32", [6], "", [1, 2, 3, 4, 5, 6]⟩ ⟨[10], 10, 0, 12⟩
    (by decide) (by decide) (by decide) (by decide) (by decide) (by decide)
    (by decide)
    ⟨[(0, 0, 6), (1, 6, 12)], List.Perm.refl _, by decide⟩
    (by decide) (by decide)).2.2

/-- C6: for a state-dict entry with more than one element whose loaded buffer
flattens to exactly `numel` elements, `reshape_params` replaces it by a 1-D
tensor of length exactly `end - begin`: the slice `[begin-index, end-index)`
of the flattened buffer followed by exactly
`min(end, index+padded_size) - max(begin, index+numel)` zero elements of the
same dtype, so the tail beyond the real-data boundary is all zeros. -/
theorem C6_reshape_slice (s2s : String → String)
    (shapeInfo : String → ParamMeta) (sliceInfo : String → Int × Int)
    (k : String) (t : Tensor) (b e : Int) (m : ParamMeta)
    (hm : shapeInfo (s2s ((k.splitOn "/").headD "")) = m)
    (hsl : sliceInfo (s2s ((k.splitOn "/").headD "")) = (b, e))
    (hlen : t.data.length = m.numel.toNat) (h1n : 1 < m.numel)
    (hib : m.index ≤ b) (hbe : b ≤ e) (hep : e ≤ m.index + m.padded) :
    ∃ r, alookup (reshapeParams s2s shapeInfo sliceInfo [(k, t)]) k = some r ∧
      r.data = (t.data.drop (b - m.index).toNat).take (e - b).toNat ++
        List.replicate
          (min e (m.index + m.padded) - max b (m.index + m.numel)).toNat 0 ∧
      r.data.length = (e - b).toNat ∧
      r.dtype = t.dtype ∧
      r.shape = [(((e - b).toNat : Nat) : Int)] ∧
      (∀ v ∈ r.data.drop (m.index + m.numel - b).toNat, v = 0) := by
  have hgt : 1 < t.data.length := by omega
  have hlook : alookup (reshapeParams s2s shapeInfo sliceInfo [(k, t)]) k =
      some (reshapeBody t b e m.numel m.index m.padded) := by
    rw [reshapeParams, runPass_lookup _ _ k (by simp [akeys]),
      show alookup [(k, t)] k = some t by simp [alookup]]
    simp only [Option.some_bind, reshapeAct, if_pos hgt, hsl, hm]
  have hdata : (reshapeBody t b e m.numel m.index m.padded).data =
      (t.data.drop (b - m.index).toNat).take (e - b).toNat ++
      List.replicate
        (min e (m.index + m.padded) - max b (m.index + m.numel)).toNat 0 := by
    simp only [reshapeBody]
    by_cases hcond : max b (m.index + m.numel) < min e (m.index + m.padded)
    · rw [if_pos hcond]
    · rw [if_neg hcond,
        show (min e (m.index + m.padded) - max b (m.index + m.numel)).toNat = 0
          by omega,
        List.replicate_zero, List.append_nil]
  have hslicedlen :
      ((t.data.drop (b - m.index).toNat).take (e - b).toNat).length =
        (min e (m.index + m.numel) - b).toNat := by
    simp only [List.length_take, List.length_drop, hlen]
    omega
  have hdlen : (reshapeBody t b e m.numel m.index m.padded).data.length =
      (e - b).toNat := by
    rw [hdata, List.length_append, hslicedlen, List.length_replicate]
    omega
  have hshape : (reshapeBody t b e m.numel m.index m.padded).shape =
      [(((reshapeBody t b e m.numel m.index m.padded).data.length : Nat) : Int)] := by
    simp only [reshapeBody]
    split
    · simp [List.length_append]
    · simp
  refine ⟨reshapeBody t b e m.numel m.index m.padded, hlook, hdata, hdlen,
    by simp only [reshapeBody]; split <;> rfl, by rw [hshape, hdlen], ?_⟩
  rw [hdata]
  intro v hv
  rw [List.drop_append_eq_append_drop] at hv
  rcases List.mem_append.mp hv with hv | hv
  · rw [List.drop_eq_nil_of_le (by rw [hslicedlen]; omega)] at hv
    cases hv
  · exact (List.eq_of_mem_replicate (List.mem_of_mem_drop hv))

/-- C6 witness: `numel = 10`, `padded = 12`, rank slice `[6, 12)`: the rebuilt
local buffer is the 4 real tail elements followed by 2 zeros, length 6. -/
theorem C6_witness :
    ∃ r, alookup (reshapeParams (fun s => s) (fun _ => ⟨[10], 10, 0, 12⟩)
        (fun _ => (6, 12))
        [("w/moment1", ⟨"float32", [10], "", [1, 2, 3, 4, 5, 6, 7, 8, 9, 10]⟩)])
        "w/moment1" = some r ∧
      r.data.length = 6 ∧ ∀ v ∈ r.data.drop 4, v = 0 := by
  obtain ⟨r, h1, -, h3, -, -, h6⟩ := C6_reshape_slice (fun s => s)
    (fun _ => ⟨[10], 10, 0, 12⟩) (fun _ => (6, 12)) "w/moment1"
    ⟨"float32", [10], "", [1, 2, 3, 4, 5, 6, 7, 8, 9, 10]⟩ 6 12
    ⟨[10], 10, 0, 12⟩ (by decide) (by decide) (by decide) (by decide)
    (by decide) (by decide) (by decide)
  exact ⟨r, h1, h3.trans (by decide), h6⟩

theorem consecutiveB_mem_bounds (l : List (Nat × Int × Int)) (c E : Int)
    (h : consecutiveB l c E = true) :
    ∀ x ∈ l, c ≤ x.2.1 ∧ x.2.1 ≤ x.2.2 ∧ x.2.2 ≤ E := by
  induction l generalizing c with
  | nil => simp
  | cons y rest ih =>
    simp only [consecutiveB, Bool.and_eq_true, decide_eq_true_eq] at h
    obtain ⟨⟨hy1, hy2⟩, hrest⟩ := h
    intro x hx
    have hyE := consecutiveB_le rest y.2.2 E hrest
    rcases List.mem_cons.mp hx with hx | hx
    · subst hx
      exact ⟨by omega, hy2, hyE⟩
    · have hb := ih y.2.2 hrest x hx
      exact ⟨by omega, hb.2.1, hb.2.2⟩

/-- C7 (amended): for a partial parameter whose send plan, in its own
(gathered) order, tiles `[index, index + padded_size)` consecutively — i.e.
the gathered slice begins ascend with rank order, the standard layout — and
whose per-rank buffers equal the global data `D` on their slices with zeros
throughout the padding region, merging via `merge_splited_param` and
re-splitting the merged buffer via `reshape_params` with each rank's
`(begin, end)` reproduces that rank's original local buffer content exactly,
zero padding included.  The bare tiling precondition of the claim is not
enough: an out-of-order send plan concatenates the fragments scrambled
(`C7_counterexample`). -/
theorem C7_roundtrip (rank : Nat) (isMW : Bool) (baseOf : String → String)
    (ptl : List String) (shapeInfo : String → ParamMeta)
    (sendT : String → List (Nat × Int × Int)) (recvT : String → Nat)
    (peers : Nat → String → List Int)
    (sd : List (String × Tensor)) (k : String) (t : Tensor) (m : ParamMeta)
    (D : Int → Int)
    (hnd : (akeys sd).Nodup) (hk : alookup sd k = some t)
    (hlen1 : t.data.length ≠ 1)
    (hm : shapeInfo (staticOf isMW baseOf k) = m)
    (hptl : staticOf isMW baseOf k ∈ ptl)
    (hrecv : rank = recvT (staticOf isMW baseOf k))
    (hcons : consecutiveB (sendT (staticOf isMW baseOf k)) m.index
      (m.index + m.padded) = true)
    (hnum : 1 < m.numel) (hnp : m.numel ≤ m.padded)
    (hzero : ∀ x : Int, m.index + m.numel ≤ x → x < m.index + m.padded →
      D x = 0)
    (hbuf : ∀ x ∈ sendT (staticOf isMW baseOf k),
      (if x.1 = rank then t.data else peers x.1 k) = intSeq D x.2.1 x.2.2) :
    ∃ mt, alookup (mergeSplitedParam rank isMW baseOf ptl shapeInfo sendT
        recvT peers "O0" sd) k = some mt ∧
      mt.data = intSeq D m.index (m.index + m.numel) ∧
      ∀ x ∈ sendT (staticOf isMW baseOf k),
        ∀ (k2 : String) (s2s : String → String)
          (shapeInfo2 : String → ParamMeta) (sliceOf : String → Int × Int),
          sliceOf (s2s ((k2.splitOn "/").headD "")) = (x.2.1, x.2.2) →
          shapeInfo2 (s2s ((k2.splitOn "/").headD "")) = m →
          alookup (reshapeParams s2s shapeInfo2 sliceOf [(k2, mt)]) k2 =
            some ⟨mt.dtype, [(((x.2.2 - x.2.1).toNat : Nat) : Int)], mt.tname,
              intSeq D x.2.1 x.2.2⟩ := by
  have hmdata : (mergedTensor rank peers k t m
      (sendT (staticOf isMW baseOf k))).data =
      intSeq D m.index (m.index + m.numel) := by
    simp only [mergedTensor]
    exact flatten_contribs_consecutive D (m.index + m.numel)
      (m.index + m.padded) (sendT (staticOf isMW baseOf k)) m.index hcons
      (by omega) _ hbuf
  refine ⟨mergedTensor rank peers k t m (sendT (staticOf isMW baseOf k)),
    ?_, hmdata, ?_⟩
  · rw [mergeSplitedParam_lookup rank isMW baseOf ptl shapeInfo sendT recvT
      peers "O0" sd k hnd, hk, if_pos rfl]
    simp only [Option.some_bind, mergeAct, if_neg hlen1]
    rw [if_pos hptl, if_pos hrecv, hm]
  · intro x hx k2 s2s shapeInfo2 sliceOf hsl hm2
    obtain ⟨hib2, hbe2, hep2⟩ := consecutiveB_mem_bounds
      (sendT (staticOf isMW baseOf k)) m.index (m.index + m.padded) hcons x hx
    have hgt : 1 < (mergedTensor rank peers k t m
        (sendT (staticOf isMW baseOf k))).data.length := by
      rw [hmdata, intSeq_length]
      omega
    have hlook : alookup (reshapeParams s2s shapeInfo2 sliceOf
        [(k2, mergedTensor rank peers k t m
          (sendT (staticOf isMW baseOf k)))]) k2 =
        some (reshapeBody (mergedTensor rank peers k t m
          (sendT (staticOf isMW baseOf k))) x.2.1 x.2.2 m.numel m.index
          m.padded) := by
      rw [reshapeParams, runPass_lookup _ _ k2 (by simp [akeys]),
        show alookup [(k2, mergedTensor rank peers k t m
          (sendT (staticOf isMW baseOf k)))] k2 =
          some (mergedTensor rank peers k t m
            (sendT (staticOf isMW baseOf k))) by simp [alookup]]
      simp only [Option.some_bind, reshapeAct, if_pos hgt, hsl, hm2]
    rw [hlook, reshapeBody_intSeq D _ x.2.1 x.2.2 m.numel m.index m.padded
      hmdata hib2 hbe2 hep2 (by omega) hzero]

/-- C7 counterexample: slices `rank0:[6,12)`, `rank1:[0,6)` tile
`[0, 12)` (`numel = 10`) and the buffers hold zeros on the padding
`[10, 12)`, yet because the gathered order is not begin-sorted the merge
concatenates the fragments scrambled, and re-splitting rank 1's range
`[0, 6)` yields `[6,7,8,9,0,1]` instead of rank 1's original `[0,1,2,3,4,5]`. -/
theorem C7_counterexample :
    TilesRange [(0, 6, 12), (1, 0, 6)] 0 12 ∧
    (∀ v ∈ ([6, 7, 8, 9, 0, 0] : List Int).drop 4, v = 0) ∧
    alookup (mergeSplitedParam 0 true (fun s => s) ["w"]
        (fun _ => ⟨[10], 10, 0, 12⟩) (fun _ => [(0, 6, 12), (1, 0, 6)])
        (fun _ => 0) (fun s _ => if s = 1 then [0, 1, 2, 3, 4, 5] else [])
        "O0" [("w", ⟨"float32", [6], "", [6, 7, 8, 9, 0, 0]⟩)]) "w" =
      some ⟨"float32", [10], "", [6, 7, 8, 9, 0, 1, 2, 3, 4, 5]⟩ ∧
    alookup (reshapeParams (fun s => s) (fun _ => ⟨[10], 10, 0, 12⟩)
        (fun _ => (0, 6))
        [("w", ⟨"float32", [10], "", [6, 7, 8, 9, 0, 1, 2, 3, 4, 5]⟩)]) "w" =
      some ⟨"float32", [6], "", [6, 7, 8, 9, 0, 1]⟩ ∧
    ([6, 7, 8, 9, 0, 1] : List Int) ≠ [0, 1, 2, 3, 4, 5] :=
  ⟨⟨[(1, 0, 6), (0, 6, 12)], List.Perm.swap _ _ _, by decide⟩,
    by decide, by decide, by decide, by decide⟩

/-- The global flat data of the C7 witness scenario: `x + 1` on the real
region `[0, 10)`, zero on the padding. -/
def C7D : Int → Int := fun x => if 0 ≤ x ∧ x < 10 then x + 1 else 0

/-- The merged tensor of the C7 witness scenario. -/
def C7mergedW : Tensor := ⟨"float32", [10], "", [1, 2, 3, 4, 5, 6, 7, 8, 9, 10]⟩

/-- C7 witness: with the begin-sorted send plan `[(0,0,6),(1,6,12)]`, the
merge/re-split round trip rebuilds rank 1's buffer `intSeq C7D 6 12 =
[7,8,9,10,0,0]` exactly. -/
theorem C7_witness :
    alookup (reshapeParams (fun s => s) (fun _ => ⟨[10], 10, 0, 12⟩)
        (fun _ => (6, 12)) [("w", C7mergedW)]) "w" =
      some ⟨C7mergedW.dtype, [((((12 : Int) - 6).toNat : Nat) : Int)],
        C7mergedW.tname, intSeq C7D 6 12⟩ := by
  obtain ⟨mt, h1, h2, h3⟩ := C7_roundtrip 0 true (fun s => s) ["w"]
    (fun _ => ⟨[10], 10, 0, 12⟩) (fun _ => [(0, 0, 6), (1, 6, 12)])
    (fun _ => 0) (fun s _ => if s = 1 then [7, 8, 9, 10, 0, 0] else [])
    [("w", ⟨"float32", [6], "", [1, 2, 3, 4, 5, 6]⟩)] "w"
    ⟨"float32", [6], "", [1, 2, 3, 4, 5, 6]⟩ ⟨[10], 10, 0, 12⟩ C7D
    (by decide) (by decide) (by decide) (by decide) (by decide) (by decide)
    (by decide) (by decide) (by decide)
    (by
      intro x hx1 hx2
      have hx1c : (0 : Int) + 10 ≤ x := hx1
      have hx2c : x < (0 : Int) + 12 := hx2
      simp only [C7D]
      rw [if_neg (by omega)])
    (by decide)
  have hmt : mt = C7mergedW := by
    have h1c : alookup (mergeSplitedParam 0 true (fun s => s) ["w"]
        (fun _ => ⟨[10], 10, 0, 12⟩) (fun _ => [(0, 0, 6), (1, 6, 12)])
        (fun _ => 0) (fun s _ => if s = 1 then [7, 8, 9, 10, 0, 0] else [])
        "O0" [("w", ⟨"float32", [6], "", [1, 2, 3, 4, 5, 6]⟩)]) "w" =
        some C7mergedW := by decide
    rw [h1c] at h1
    exact (Option.some.inj h1).symm
  have h4 := h3 (1, 6, 12) (by decide) "w" (fun s => s)
    (fun _ => ⟨[10], 10, 0, 12⟩) (fun _ => (6, 12)) (by decide) (by decide)
  rw [hmt] at h4
  exact h4

theorem unfoundInner_lookup_notmem (df : DirFile) (unfound : List String)
    (acc : List (String × Tensor)) (n : String) (h : n ∉ unfound) :
    alookup (unfound.foldl (fun acc2 k =>
      match alookup df.fkeys k with
      | some t => aset acc2 k t
      | none => acc2) acc) n = alookup acc n := by
  induction unfound generalizing acc with
  | nil => rfl
  | cons k rest ih =>
    simp only [List.mem_cons] at h
    push_neg at h
    simp only [List.foldl_cons]
    rw [ih _ h.2]
    cases hdf : alookup df.fkeys k with
    | none => rfl
    | some t => exact alookup_aset_ne _ _ _ _ (fun hh => h.1 hh.symm)

theorem unfoundInner_lookup_isSome (df : DirFile) (unfound : List String)
    (acc : List (String × Tensor)) (n : String) :
    (alookup (unfound.foldl (fun acc2 k =>
      match alookup df.fkeys k with
      | some t => aset acc2 k t
      | none => acc2) acc) n).isSome ↔
    (alookup acc n).isSome ∨ (n ∈ unfound ∧ (alookup df.fkeys n).isSome) := by
  induction unfound generalizing acc with
  | nil => simp
  | cons k rest ih =>
    simp only [List.foldl_cons, List.mem_cons]
    rw [ih]
    by_cases hn : k = n
    · subst hn
      cases hdf : alookup df.fkeys k with
      | none => simp [hdf]
      | some t => simp [hdf, alookup_aset_self]
    · cases hdf : alookup df.fkeys k with
      | none =>
        constructor
        · rintro (h | h)
          · exact Or.inl h
          · exact Or.inr ⟨Or.inr h.1, h.2⟩
        · rintro (h | ⟨(h1 | h1), h2⟩)
          · exact Or.inl h
          · exact absurd h1.symm hn
          · exact Or.inr ⟨h1, h2⟩
      | some t =>
        rw [alookup_aset_ne _ _ _ _ hn]
        constructor
        · rintro (h | h)
          · exact Or.inl h
          · exact Or.inr ⟨Or.inr h.1, h.2⟩
        · rintro (h | ⟨(h1 | h1), h2⟩)
          · exact Or.inl h
          · exact absurd h1.symm hn
          · exact Or.inr ⟨h1, h2⟩

theorem unfoundOuter_lookup_notmem (unfound : List String)
    (bs : List DirFile) (sd : List (String × Tensor)) (n : String)
    (h : n ∉ unfound) :
    alookup (bs.foldl (fun acc df =>
      unfound.foldl (fun acc2 k =>
        match alookup df.fkeys k with
        | some t => aset acc2 k t
        | none => acc2) acc) sd) n = alookup sd n := by
  induction bs generalizing sd with
  | nil => rfl
  | cons df rest ih =>
    simp only [List.foldl_cons]
    rw [ih _, unfoundInner_lookup_notmem df unfound sd n h]

theorem unfoundOuter_lookup_isSome (unfound : List String)
    (bs : List DirFile) (sd : List (String × Tensor)) (n : String) :
    (alookup (bs.foldl (fun acc df =>
      unfound.foldl (fun acc2 k =>
        match alookup df.fkeys k with
        | some t => aset acc2 k t
        | none => acc2) acc) sd) n).isSome ↔
    (alookup sd n).isSome ∨ (n ∈ unfound ∧ ∃ df ∈ bs,
      (alookup df.fkeys n).isSome) := by
  induction bs generalizing sd with
  | nil => simp
  | cons df rest ih =>
    simp only [List.foldl_cons]
    rw [ih, unfoundInner_lookup_isSome df unfound sd n]
    constructor
    · rintro ((h | ⟨h1, h2⟩) | ⟨h1, df2, h2, h3⟩)
      · exact Or.inl h
      · exact Or.inr ⟨h1, df, List.mem_cons_self df rest, h2⟩
      · exact Or.inr ⟨h1, df2, List.mem_cons_of_mem df h2, h3⟩
    · rintro (h | ⟨h1, df2, h2, h3⟩)
      · exact Or.inl (Or.inl h)
      · rcases List.mem_cons.mp h2 with h2 | h2
        · subst h2
          exact Or.inl (Or.inr ⟨h1, h3⟩)
        · exact Or.inr ⟨h1, df2, h2, h3⟩

/-- C8 (amended): after the primary shard load, each still-missing expected
key is searched for across the sibling files of the checkpoint directory that
start with the fixed prefix (`optimizer` / `master_weights`), end with
`safetensors`, differ from the primary shard, and whose name with shard-index
tokens stripped equals the primary shard's stripped name; a missing key found
in such a file is added to the state dict, every other entry is untouched, and
keys found in no such file are left absent without an error.  The claim's
sibling description lacks the prefix/suffix conditions (`C8_counterexample`). -/
theorem C8_fallback (unfound : List String) (dir : List DirFile)
    (nameBase primaryName : String) (sd : List (String × Tensor))
    (n : String) :
    (n ∉ unfound →
      alookup (getUnfoundParams unfound dir nameBase primaryName sd) n =
        alookup sd n) ∧
    ((alookup (getUnfoundParams unfound dir nameBase primaryName sd) n).isSome ↔
      (alookup sd n).isSome ∨ (n ∈ unfound ∧ ∃ df ∈ dir,
        isBackupFile nameBase primaryName df.fname = true ∧
        (alookup df.fkeys n).isSome)) := by
  by_cases hu : unfound.length = 0
  · have hnil : unfound = [] := List.length_eq_zero.mp hu
    subst hnil
    simp [getUnfoundParams]
  · constructor
    · intro hn
      simp only [getUnfoundParams, if_neg hu]
      exact unfoundOuter_lookup_notmem unfound _ sd n hn
    · simp only [getUnfoundParams, if_neg hu]
      rw [unfoundOuter_lookup_isSome unfound _ sd n]
      constructor
      · rintro (h | ⟨h1, df, h2, h3⟩)
        · exact Or.inl h
        · rcases List.mem_filter.mp h2 with ⟨h2a, h2b⟩
          exact Or.inr ⟨h1, df, h2a, h2b, h3⟩
      · rintro (h | ⟨h1, df, h2, h3, h4⟩)
        · exact Or.inl h
        · exact Or.inr ⟨h1, df, List.mem_filter.mpr ⟨h2, h3⟩, h4⟩

/-- C8 counterexample: the file `optimizer.safetensors_shard1` equals the
primary shard `optimizer_shard0.safetensors` once shard tokens are stripped
and differs from it, and it holds the missing key `k`, yet the fallback scan
does not add `k` (the file fails the `endswith("safetensors")` filter the
claim omits). -/
theorem C8_counterexample :
    stripShard "optimizer.safetensors_shard1" =
      stripShard "optimizer_shard0.safetensors" ∧
    "optimizer.safetensors_shard1" ≠ "optimizer_shard0.safetensors" ∧
    alookup (DirFile.fkeys ⟨"optimizer.safetensors_shard1",
        [("k", ⟨"float32", [1], "", [7]⟩)]⟩) "k" =
      some ⟨"float32", [1], "", [7]⟩ ∧
    alookup (getUnfoundParams ["k"]
        [⟨"optimizer.safetensors_shard1", [("k", ⟨"float32", [1], "", [7]⟩)]⟩]
        "optimizer" "optimizer_shard0.safetensors" []) "k" = none :=
  ⟨by decide, by decide, by decide, by decide⟩

/-- C8 witness: a sibling shard `optimizer_shard1.safetensors` holding the
missing key is scanned and the key is pulled into the state dict. -/
theorem C8_witness :
    (alookup (getUnfoundParams ["k"]
      [⟨"optimizer_shard1.safetensors", [("k", ⟨"float32", [1], "", [7]⟩)]⟩]
      "optimizer" "optimizer_shard0.safetensors" []) "k").isSome :=
  (C8_fallback ["k"]
    [⟨"optimizer_shard1.safetensors", [("k", ⟨"float32", [1], "", [7]⟩)]⟩]
    "optimizer" "optimizer_shard0.safetensors" [] "k").2.mpr
    (Or.inr ⟨by decide,
      ⟨"optimizer_shard1.safetensors", [("k", ⟨"float32", [1], "", [7]⟩)]⟩,
      by decide, by decide, by decide⟩)

theorem mem_aset {α : Type} (d : List (String × α)) (k : String) (v : α)
    (q : String × α) (h : q ∈ aset d k v) : q = (k, v) ∨ q ∈ d := by
  induction d with
  | nil => simpa [aset] using h
  | cons p rest ih =>
    obtain ⟨k0, v0⟩ := p
    by_cases h0 : k0 = k
    · subst h0
      simp only [aset, if_pos rfl] at h
      rcases List.mem_cons.mp h with h | h
      · exact Or.inl h
      · exact Or.inr (List.mem_cons_of_mem _ h)
    · simp only [aset, if_neg h0] at h
      rcases List.mem_cons.mp h with h | h
      · exact Or.inr (h ▸ List.mem_cons_self _ _)
      · rcases ih h with h | h
        · exact Or.inl h
        · exact Or.inr (List.mem_cons_of_mem _ h)

theorem loadMWEntry_spec (s2s : String → String) (k : String) (t : Tensor) :
    (loadMWEntry s2s k t).2.dtype = "float32" ∧
    (loadMWEntry s2s k t).2.tname = (loadMWEntry s2s k t).1 ++ "_" ++
      FP32_MASTER := by
  refine ⟨?_, rfl⟩
  simp only [loadMWEntry, renameT]
  by_cases hd : t.dtype = "float32"
  · simp [hd, castT]
  · simp [hd, castT]

/-- C9: on the load path, every master weight stored by the master-weight
loop of `load_unified_optimizer_split_param` ends up with dtype float32
(non-float32 inputs are cast before being stored) and is renamed with the
fixed `FP32_MASTER` suffix appended to its static name; and in
`load_non_merge_optimizer_with_split_param`, when the run is not AMP O1 and
no master-weights file exists on disk, the master weight is synthesized by
casting the regular model parameter to float32. -/
theorem C9_master_weight_policy (s2s : String → String)
    (mw : List (String × Tensor)) (isAmpO1 hasMWFile : Bool)
    (mw2 : List (String × Tensor)) (key : String) (mp : Tensor)
    (h1 : isAmpO1 = false) (h2 : hasMWFile = false) :
    (∀ p ∈ loadMWLoop s2s mw, p.2.dtype = "float32" ∧
      p.2.tname = p.1 ++ "_" ++ FP32_MASTER) ∧
    alookup (maybeSynthesizeMW isAmpO1 hasMWFile mw2 key mp) key =
      some (castT mp "float32") ∧
    (castT mp "float32").dtype = "float32" := by
  refine ⟨?_, ?_, rfl⟩
  · suffices haux : ∀ (l acc : List (String × Tensor)),
        (∀ p ∈ acc, p.2.dtype = "float32" ∧
          p.2.tname = p.1 ++ "_" ++ FP32_MASTER) →
        ∀ p ∈ l.foldl (fun acc kt =>
          aset acc (loadMWEntry s2s kt.1 kt.2).1 (loadMWEntry s2s kt.1 kt.2).2)
          acc,
        p.2.dtype = "float32" ∧ p.2.tname = p.1 ++ "_" ++ FP32_MASTER from
      haux mw [] (by simp)
    intro l
    induction l with
    | nil => intro acc hacc p hp; exact hacc p hp
    | cons kt rest ih =>
      intro acc hacc p hp
      simp only [List.foldl_cons] at hp
      refine ih _ ?_ p hp
      intro q hq
      rcases mem_aset _ _ _ q hq with hq | hq
      · subst hq
        exact loadMWEntry_spec s2s kt.1 kt.2
      · exact hacc q hq
  · rw [maybeSynthesizeMW, h1, h2]
    simp only [Bool.not_false, Bool.and_self, if_pos rfl]
    exact alookup_aset_self mw2 key (castT mp "float32")

/-- C9 witness: a float16 model parameter is synthesized into a float32
master weight when no master-weights file exists under AMP O2. -/
theorem C9_witness :
    alookup (maybeSynthesizeMW false false [] "p"
        ⟨"float16", [2], "p", [3, 4]⟩) "p" =
      some (castT ⟨"float16", [2], "p", [3, 4]⟩ "float32") :=
  (C9_master_weight_policy (fun s => s) [] false false [] "p"
    ⟨"float16", [2], "p", [3, 4]⟩ rfl rfl).2.1

end SplitParam
